import Mathlib

/-!
Verification of the scheduling / caching / fetch-chain core of the
fluentxverse news-lesson service.

Every definition below is a shallow embedding of the corresponding
TypeScript source:

* the in-memory Redis-compatible cache client (`get`, `setEx`, `lRange`,
  `rPush`, `lTrim`) and the token-revocation helpers built on it;
* the daily scheduler's fixed-offset (UTC+8) next-run computation, with the
  relevant ECMAScript `Date` primitives embedded from the ECMA-262
  specification of the JS builtins the code calls;
* the multi-provider news fetch chain (`fetchNewsTool.execute`), including
  the regex-based RSS fallback parser;
* a model of `JSON.parse` / `JSON.stringify` (RFC 8259 grammar as used by
  ECMAScript), which the list operations of the cache client call.

Machine integers are modelled as `Int` / `Nat` (JS numbers in this code are
used only at integral values: epoch milliseconds, counts, TTLs).
-/

namespace FXV

/-! ## In-memory TTL cache store

Embeds the store of `createInMemoryCache` (a JS `Map` from string keys to
`{ value: string; expires: number }` records). -/

/-- Record type stored in the cache map: serialized string value plus the
absolute expiry instant in epoch milliseconds. -/
structure CacheEntry where
  value : String
  expires : Int
  deriving DecidableEq, Repr

/-- The JS `Map` backing the in-memory client, as a partial map. -/
def CacheStore : Type := String → Option CacheEntry

/-- Embeds `store.set(key, entry)`. -/
def CacheStore.set (s : CacheStore) (k : String) (e : CacheEntry) : CacheStore :=
  fun q => if q = k then some e else s q

/-- Embeds `store.delete(key)`. -/
def CacheStore.del (s : CacheStore) (k : String) : CacheStore :=
  fun q => if q = k then none else s q

/-- Embeds `new Map()`. -/
def CacheStore.empty : CacheStore := fun _ => none

namespace InMem

/-- Embeds the client's `get`: a present entry with `Date.now() > entry.expires`
(strict comparison in the source) is deleted and reported as a miss; otherwise
the stored value is returned.  The result pair is (returned value, store after
the read), making the eviction side effect of the read explicit. -/
def get (now : Int) (s : CacheStore) (k : String) : Option String × CacheStore :=
  match s k with
  | none => (none, s)
  | some e => if now > e.expires then (none, s.del k) else (some e.value, s)

/-- Embeds the client's `setEx`: unconditional overwrite with
`expires = Date.now() + ttl * 1000`. -/
def setEx (now : Int) (s : CacheStore) (k : String) (ttl : Int) (v : String) : CacheStore :=
  s.set k ⟨v, now + ttl * 1000⟩

end InMem

end FXV

/-! ## Claim C1 -/

namespace FXV

/-- Counterexample to claim C1 as stated: an entry whose
`expiresAtEpochMillis` equals `now` (so `expiresAtEpochMillis <= now` holds)
is nevertheless returned as a hit and kept in the store, because the source
expires entries only under the strict comparison `Date.now() > entry.expires`. -/
theorem claim_C1_cex :
    (∃ e, (CacheStore.empty.set "k" ⟨"v", 100⟩) "k" = some e ∧ e.expires ≤ 100) ∧
    (InMem.get 100 (CacheStore.empty.set "k" ⟨"v", 100⟩) "k").1 = some "v" ∧
    ((InMem.get 100 (CacheStore.empty.set "k" ⟨"v", 100⟩) "k").2) "k" ≠ none := by
  refine ⟨⟨⟨"v", 100⟩, by decide, by decide⟩, by decide, by decide⟩

/-- Claim C1, amended: after `setEx(k, t, v)` with `t > 0`, an immediate
`get(k)` returns `v`; and every key present in the store whose expiry is
strictly before `now` (`expiresAtEpochMillis < now`, rather than the claimed
`<= now`) reads as a miss and is removed as a side effect of the read. -/
theorem claim_C1 (now t : Int) (k v : String) (s : CacheStore) (ht : 0 < t) :
    (InMem.get now (InMem.setEx now s k t v) k).1 = some v ∧
    (∀ e, s k = some e → e.expires < now →
      (InMem.get now s k).1 = none ∧ (InMem.get now s k).2 k = none) := by
  constructor
  · show (InMem.get now (s.set k ⟨v, now + t * 1000⟩) k).1 = some v
    unfold InMem.get CacheStore.set
    simp only [if_pos rfl]
    have : ¬ now > now + t * 1000 := by nlinarith
    simp [this]
  · intro e he hlt
    unfold InMem.get
    rw [he]
    have : now > e.expires := hlt
    simp [this, CacheStore.del]

/-- Witness for claim C1 at a concrete input. -/
theorem claim_C1_witness :
    ((0:Int) < 1) ∧
    (InMem.get 0 (InMem.setEx 0 CacheStore.empty "k" 1 "v") "k").1 = some "v" :=
  ⟨by decide, (claim_C1 0 1 "k" "v" CacheStore.empty (by decide)).1⟩

end FXV

namespace FXV

/-! ## ECMAScript Date primitives

The scheduler calls the JS builtins `Date.UTC`, `getUTCFullYear`,
`getUTCMonth`, `getUTCDate`, `getUTCHours`, `getUTCMinutes`.  These are
embedded from their ECMA-262 definitions.  ECMA's floor division and
sign-of-divisor modulo coincide with Mathlib's `Int` division `/` and `%`
(Euclidean) for the positive constant divisors used here. -/

/-- Milliseconds per minute (ECMA `msPerMinute`). -/
def msPerMinute : Int := 60000

/-- Milliseconds per hour (ECMA `msPerHour`). -/
def msPerHour : Int := 3600000

/-- Milliseconds per day (ECMA `msPerDay`). -/
def msPerDay : Int := 86400000

/-- ECMA `Day(t)`: the epoch day number containing instant `t`. -/
def DayNumber (t : Int) : Int := t / msPerDay

/-- ECMA `TimeWithinDay(t)`. -/
def TimeWithinDay (t : Int) : Int := t % msPerDay

/-- ECMA `HourFromTime(t)` (the `getUTCHours` field). -/
def HourFromTime (t : Int) : Int := (t / msPerHour) % 24

/-- ECMA `MinFromTime(t)` (the `getUTCMinutes` field). -/
def MinFromTime (t : Int) : Int := (t / msPerMinute) % 60

/-- ECMA `DayFromYear(y)`: epoch day number of January 1 of year `y`. -/
def DayFromYear (y : Int) : Int :=
  365 * (y - 1970) + (y - 1969) / 4 - (y - 1901) / 100 + (y - 1601) / 400

/-- ECMA `DaysInYear(y)`. -/
def DaysInYear (y : Int) : Int :=
  if y % 4 ≠ 0 then 365
  else if y % 100 ≠ 0 then 366
  else if y % 400 ≠ 0 then 365
  else 366

/-- Upward search used to realize ECMA `YearFromTime`; stops at the last
year whose first day is at or before epoch day `d`. -/
def yearFromTimeAux : Nat → Int → Int → Int
  | 0, _, y => y
  | n + 1, d, y => if DayFromYear (y + 1) ≤ d then yearFromTimeAux n d (y + 1) else y

/-- ECMA `YearFromTime(t)`: the largest year `y` with `TimeFromYear(y) ≤ t`,
computed for the nonnegative instants considered here by upward search from
1970 (the fuel bounds the search; one year advances the first day by at
least one epoch day). -/
def YearFromTime (t : Int) : Int :=
  yearFromTimeAux ((DayNumber t).toNat + 1) (DayNumber t) 1970

/-- ECMA `InLeapYear(t)`. -/
def InLeapYear (t : Int) : Int :=
  if DaysInYear (YearFromTime t) = 366 then 1 else 0

/-- ECMA `DayWithinYear(t)`. -/
def DayWithinYear (t : Int) : Int := DayNumber t - DayFromYear (YearFromTime t)

/-- First day-within-year of month `m` (0-based) given the leap flag `ily`;
this is the cumulative-days table underlying ECMA `MonthFromTime`,
`DateFromTime` and `MakeDay`. -/
def monthFirstDay (m ily : Int) : Int :=
  if m = 0 then 0
  else if m = 1 then 31
  else if m = 2 then 59 + ily
  else if m = 3 then 90 + ily
  else if m = 4 then 120 + ily
  else if m = 5 then 151 + ily
  else if m = 6 then 181 + ily
  else if m = 7 then 212 + ily
  else if m = 8 then 243 + ily
  else if m = 9 then 273 + ily
  else if m = 10 then 304 + ily
  else 334 + ily

/-- Month (0-based) of a given day-within-year under leap flag `ily`; the
case split of ECMA `MonthFromTime`. -/
def monthFromDay (d ily : Int) : Int :=
  if d < 31 then 0
  else if d < 59 + ily then 1
  else if d < 90 + ily then 2
  else if d < 120 + ily then 3
  else if d < 151 + ily then 4
  else if d < 181 + ily then 5
  else if d < 212 + ily then 6
  else if d < 243 + ily then 7
  else if d < 273 + ily then 8
  else if d < 304 + ily then 9
  else if d < 334 + ily then 10
  else 11

/-- ECMA `MonthFromTime(t)` (the `getUTCMonth` field, 0-based). -/
def MonthFromTime (t : Int) : Int :=
  monthFromDay (DayWithinYear t) (InLeapYear t)

/-- ECMA `DateFromTime(t)` (the `getUTCDate` field, 1-based): ECMA's twelve
per-month cases written through the shared cumulative table. -/
def DateFromTime (t : Int) : Int :=
  DayWithinYear t - monthFirstDay (MonthFromTime t) (InLeapYear t) + 1

/-- ECMA `MakeDay(year, month, date)` at integral arguments: day number of
the first of the (normalized) month, plus `date - 1`; `date` outside the
month's range rolls over, exactly as `Date.UTC` normalizes overflow. -/
def MakeDay (year month date : Int) : Int :=
  DayFromYear (year + month / 12) +
    monthFirstDay (month % 12) (if DaysInYear (year + month / 12) = 366 then 1 else 0) +
    date - 1

/-- ECMA `MakeDate(day, time)`. -/
def MakeDate (day time : Int) : Int := day * msPerDay + time

/-- ECMA `MakeTime(hour, min, 0, 0)`. -/
def MakeTime (hour min : Int) : Int := hour * msPerHour + min * msPerMinute

/-- Embeds `Date.UTC(y, m, d, h, min, 0, 0)` at integral in-range arguments. -/
def DateUTC (y m d h min : Int) : Int := MakeDate (MakeDay y m d) (MakeTime h min)

/-- The month case split always yields a value in `{0, …, 11}`. -/
theorem monthFromDay_range (d ily : Int) :
    0 ≤ monthFromDay d ily ∧ monthFromDay d ily < 12 := by
  unfold monthFromDay; omega

/-- Recomposing the ECMA calendar fields of an instant recovers its epoch
day number: the cumulative-month and first-of-year terms cancel, so this
holds unconditionally. -/
theorem makeDay_roundTrip (t : Int) :
    MakeDay (YearFromTime t) (MonthFromTime t) (DateFromTime t) = DayNumber t := by
  have h0 := (monthFromDay_range (DayWithinYear t) (InLeapYear t)).1
  have h1 := (monthFromDay_range (DayWithinYear t) (InLeapYear t)).2
  unfold MakeDay DateFromTime MonthFromTime
  rw [Int.ediv_eq_zero_of_lt h0 (by omega), Int.emod_eq_of_lt h0 (by omega)]
  simp only [add_zero]
  unfold InLeapYear DayWithinYear
  omega

/-- ECMA `MakeDay` is linear in the date argument. -/
theorem makeDay_date_succ (y m d : Int) : MakeDay y m (d + 1) = MakeDay y m d + 1 := by
  unfold MakeDay; ring

/-- Whole epoch days have the expected day number. -/
theorem dayNumber_makeDate (k : Int) : DayNumber (MakeDate k 0) = k := by
  unfold DayNumber MakeDate msPerDay; omega

/-! ## Daily scheduler: next-run computation (lesson.scheduler.ts) -/

/-- Constant `PHT_OFFSET_HOURS` of lesson.scheduler.ts (UTC+8, fixed). -/
def PHT_OFFSET_HOURS : Int := 8

/-- Constant `SCHEDULED_HOUR` of lesson.scheduler.ts (3 AM PHT). -/
def SCHEDULED_HOUR : Int := 3

/-- Constant `SCHEDULED_MINUTE` of lesson.scheduler.ts. -/
def SCHEDULED_MINUTE : Int := 0

/-- Result record of `getPhilippinesTimeComponents`. -/
structure PHTComponents where
  year : Int
  month : Int
  day : Int
  hour : Int
  minute : Int

/-- Embeds `getPhilippinesTimeComponents`: shift the current instant by the
fixed UTC+8 offset and read the UTC calendar fields of the shifted instant
(`nowMs` stands for `Date.now()`). -/
def getPhilippinesTimeComponents (nowMs : Int) : PHTComponents :=
  ⟨YearFromTime (nowMs + PHT_OFFSET_HOURS * 60 * 60 * 1000),
   MonthFromTime (nowMs + PHT_OFFSET_HOURS * 60 * 60 * 1000),
   DateFromTime (nowMs + PHT_OFFSET_HOURS * 60 * 60 * 1000),
   HourFromTime (nowMs + PHT_OFFSET_HOURS * 60 * 60 * 1000),
   MinFromTime (nowMs + PHT_OFFSET_HOURS * 60 * 60 * 1000)⟩

/-- Embeds `getMillisecondsUntilNextRun`: if the PHT wall clock is at or past
03:00, roll the target date to the next calendar day via
`new Date(Date.UTC(year, month, day + 1))` and re-read its UTC fields; the
target instant is the target PHT wall-clock time minus the fixed offset. -/
def getMillisecondsUntilNextRun (nowMs : Int) : Int :=
  let pht := getPhilippinesTimeComponents nowMs
  let tempDate : Int := MakeDate (MakeDay pht.year pht.month (pht.day + 1)) 0
  let rolled : Int × Int × Int :=
    if pht.hour ≥ SCHEDULED_HOUR ∨ (pht.hour = SCHEDULED_HOUR ∧ pht.minute ≥ SCHEDULED_MINUTE)
    then (YearFromTime tempDate, MonthFromTime tempDate, DateFromTime tempDate)
    else (pht.year, pht.month, pht.day)
  let targetPHTasUTC := DateUTC rolled.1 rolled.2.1 rolled.2.2 SCHEDULED_HOUR SCHEDULED_MINUTE
  (targetPHTasUTC - PHT_OFFSET_HOURS * 60 * 60 * 1000) - nowMs

/-- Closed form of the scheduler delay: the target is 03:00 PHT of the
current (or, at or past 03:00 PHT, the next) PHT calendar day. -/
theorem getMillisecondsUntilNextRun_eq (nowMs : Int) :
    getMillisecondsUntilNextRun nowMs =
      (if 3 ≤ HourFromTime (nowMs + 8 * msPerHour)
        then (DayNumber (nowMs + 8 * msPerHour) + 1) * msPerDay
        else DayNumber (nowMs + 8 * msPerHour) * msPerDay)
      + 3 * msPerHour - 8 * msPerHour - nowMs := by
  have hmin : 0 ≤ MinFromTime (nowMs + 8 * msPerHour) := by
    unfold MinFromTime
    exact Int.emod_nonneg _ (by norm_num)
  have hoff : PHT_OFFSET_HOURS * 60 * 60 * 1000 = 8 * msPerHour := by
    unfold PHT_OFFSET_HOURS msPerHour; norm_num
  simp only [getMillisecondsUntilNextRun, getPhilippinesTimeComponents, hoff,
    SCHEDULED_HOUR, SCHEDULED_MINUTE]
  by_cases hc : 3 ≤ HourFromTime (nowMs + 8 * msPerHour)
  · have hcond : HourFromTime (nowMs + 8 * msPerHour) ≥ 3 ∨
        (HourFromTime (nowMs + 8 * msPerHour) = 3 ∧
          MinFromTime (nowMs + 8 * msPerHour) ≥ 0) := Or.inl hc
    rw [if_pos hcond, if_pos hc]
    dsimp only
    have hrt : MakeDay (YearFromTime (nowMs + 8 * msPerHour))
        (MonthFromTime (nowMs + 8 * msPerHour))
        (DateFromTime (nowMs + 8 * msPerHour) + 1)
        = DayNumber (nowMs + 8 * msPerHour) + 1 := by
      rw [makeDay_date_succ, makeDay_roundTrip]
    rw [hrt]
    have hrt2 := makeDay_roundTrip (MakeDate (DayNumber (nowMs + 8 * msPerHour) + 1) 0)
    rw [dayNumber_makeDate] at hrt2
    unfold DateUTC
    rw [hrt2]
    unfold MakeDate MakeTime
    ring
  · have hcond : ¬ (HourFromTime (nowMs + 8 * msPerHour) ≥ 3 ∨
        (HourFromTime (nowMs + 8 * msPerHour) = 3 ∧
          MinFromTime (nowMs + 8 * msPerHour) ≥ 0)) := by
      push_neg
      exact ⟨by omega, fun h => absurd h (by omega)⟩
    rw [if_neg hcond, if_neg hc]
    unfold DateUTC
    rw [makeDay_roundTrip]
    unfold MakeDate MakeTime
    ring

/-- Claim C2: writing `pht := nowMs + 8h` for the PHT-shifted instant, if the
PHT wall clock is at or past 03:00 then the computed delay is strictly
positive, at most 24 hours, and lands exactly at 03:00 PHT of the next PHT
calendar day; if the wall clock is before 03:00 the delay lands exactly at
03:00 PHT of the same PHT calendar day.  (Instants are restricted to the
epoch-nonnegative range in which the service runs.) -/
theorem claim_C2 (nowMs : Int) (_h0 : 0 ≤ nowMs) :
    (3 ≤ HourFromTime (nowMs + 8 * msPerHour) →
      0 < getMillisecondsUntilNextRun nowMs ∧
      getMillisecondsUntilNextRun nowMs ≤ 24 * msPerHour ∧
      nowMs + getMillisecondsUntilNextRun nowMs + 8 * msPerHour
        = (DayNumber (nowMs + 8 * msPerHour) + 1) * msPerDay + 3 * msPerHour ∧
      DayNumber (nowMs + getMillisecondsUntilNextRun nowMs + 8 * msPerHour)
        = DayNumber (nowMs + 8 * msPerHour) + 1 ∧
      HourFromTime (nowMs + getMillisecondsUntilNextRun nowMs + 8 * msPerHour) = 3 ∧
      MinFromTime (nowMs + getMillisecondsUntilNextRun nowMs + 8 * msPerHour) = 0) ∧
    (HourFromTime (nowMs + 8 * msPerHour) < 3 →
      nowMs + getMillisecondsUntilNextRun nowMs + 8 * msPerHour
        = DayNumber (nowMs + 8 * msPerHour) * msPerDay + 3 * msPerHour ∧
      DayNumber (nowMs + getMillisecondsUntilNextRun nowMs + 8 * msPerHour)
        = DayNumber (nowMs + 8 * msPerHour) ∧
      HourFromTime (nowMs + getMillisecondsUntilNextRun nowMs + 8 * msPerHour) = 3 ∧
      MinFromTime (nowMs + getMillisecondsUntilNextRun nowMs + 8 * msPerHour) = 0) := by
  have hkey := getMillisecondsUntilNextRun_eq nowMs
  unfold HourFromTime MinFromTime DayNumber msPerHour msPerMinute msPerDay at *
  constructor
  · intro hh
    rw [if_pos hh] at hkey
    refine ⟨by omega, by omega, by omega, by omega, by omega, by omega⟩
  · intro hh
    rw [if_neg (by omega)] at hkey
    refine ⟨by omega, by omega, by omega, by omega⟩

/-- Witness for claim C2 at the concrete instant 0 (1970-01-01T00:00Z, which
is 08:00 PHT, at or past 03:00): the delay is positive, at most 24 hours,
and lands at 03:00 PHT the next day. -/
theorem claim_C2_witness :
    0 < getMillisecondsUntilNextRun 0 ∧
    getMillisecondsUntilNextRun 0 ≤ 24 * msPerHour ∧
    (0:Int) + getMillisecondsUntilNextRun 0 + 8 * msPerHour
      = (DayNumber ((0:Int) + 8 * msPerHour) + 1) * msPerDay + 3 * msPerHour := by
  have h := (claim_C2 0 (by decide)).1 (by decide)
  exact ⟨h.1, h.2.1, h.2.2.1⟩

end FXV

namespace FXV

/-! ## Multi-provider news fetch chain (fetchNewsTool.execute)

The provider requests themselves are external effects; each provider's
response is passed in as an `Except Unit _` value (`Except.error` stands for
a rejected `fetch`/`json()`/`text()` promise, caught by the corresponding
catch block).  Environment credentials are `Option String`
(`none` = variable unset). -/

/-- The `NewsArticle` schema of the tool output. -/
structure NewsArticle where
  title : String
  description : Option String
  content : Option String
  url : String
  source : String
  publishedAt : String
  author : Option String
  deriving DecidableEq, Repr

/-- JS `x || d` at string type: `undefined`/`null` and the empty string are
falsy. -/
def jsOrString (x : Option String) (d : String) : String :=
  match x with
  | none => d
  | some s => if s = "" then d else s

/-- JS `x || null` at string type. -/
def jsOrNull (x : Option String) : Option String :=
  match x with
  | none => none
  | some s => if s = "" then none else s

/-- JS `x || d` at number type: `undefined` and `0` are falsy. -/
def jsOrNum (x : Option Int) (d : Int) : Int :=
  match x with
  | none => d
  | some n => if n = 0 then d else n

/-- JS truthiness test on an environment credential (`if (key)`). -/
def keyPresent (k : Option String) : Bool :=
  match k with
  | none => false
  | some s => !(s = "")

/-- Raw provider article as read from provider JSON; every field may be
absent (string fields only occur at string type in this code). -/
structure RawArticle where
  title : Option String
  description : Option String
  content : Option String
  url : Option String
  sourceName : Option String
  publishedAt : Option String
  author : Option String
  deriving DecidableEq, Repr

/-- Shape expected from the NewsAPI response. -/
structure NewsApiData where
  status : String
  articles : List RawArticle
  totalResults : Int
  deriving DecidableEq, Repr

/-- Shape expected from the GNews response (both fields optional). -/
structure GNewsData where
  articles : Option (List RawArticle)
  totalArticles : Option Int
  deriving DecidableEq, Repr

/-- Output shape of the tool. -/
structure FetchNewsResult where
  articles : List NewsArticle
  totalResults : Int
  query : String
  deriving DecidableEq, Repr

/-- Normalization of one NewsAPI article (`nowIso` stands for
`new Date().toISOString()` at fetch time). -/
def normalizeNewsApi (nowIso : String) (a : RawArticle) : NewsArticle :=
  ⟨jsOrString a.title "", jsOrNull a.description, jsOrNull a.content,
   jsOrString a.url "", jsOrString a.sourceName "Unknown",
   jsOrString a.publishedAt nowIso, jsOrNull a.author⟩

/-- Normalization of one GNews article (author always null in the source). -/
def normalizeGNews (nowIso : String) (a : RawArticle) : NewsArticle :=
  ⟨jsOrString a.title "", jsOrNull a.description, jsOrNull a.content,
   jsOrString a.url "", jsOrString a.sourceName "Unknown",
   jsOrString a.publishedAt nowIso, none⟩

/-! ### RSS fallback: the regex scanning loop

The source drives `itemRegex.exec` (a lazy `<item>([\s\S]*?)</item>` global
regex) over the feed text and per item applies lazy-dot field regexes.  The
scans are embedded as character-list functions with the same
leftmost-position, shortest-content semantics; recursion over later match
positions is fueled by the input length (one step always consumes at least
the open tag). -/

/-- Splits `s` at the first occurrence of `pat`: returns the part before the
occurrence and the part after it. -/
def splitFirst (pat : List Char) : List Char → Option (List Char × List Char)
  | [] => if pat = [] then some ([], []) else none
  | c :: rest =>
    if pat.isPrefixOf (c :: rest) then some ([], (c :: rest).drop pat.length)
    else
      match splitFirst pat rest with
      | none => none
      | some (b, a) => some (c :: b, a)

/-- Chars matched by an unflagged JS regex `.` (it excludes the four line
terminators). -/
def isDotChar (c : Char) : Bool :=
  !(c = '\n' || c = '\r' || c = ' ' || c = ' ')

/-- Lazy scan `(.*?)cls` from the current position: the shortest run of
dot-matchable chars followed by `cls`; returns (captured content, rest after
`cls`). -/
def matchDotLazy (cls : List Char) : List Char → Option (List Char × List Char)
  | [] => none
  | c :: rest =>
    if cls.isPrefixOf (c :: rest) then some ([], (c :: rest).drop cls.length)
    else if isDotChar c then
      match matchDotLazy cls rest with
      | none => none
      | some (content, after) => some (c :: content, after)
    else none

/-- Open and close tags of the RSS item/field regexes. -/
def itemOpen : List Char := "<item>".data

/-- Close tag of the item regex. -/
def itemClose : List Char := "</item>".data

/-- Embeds the loop of `itemRegex.exec`: successive minimal
`<item>…</item>` blocks, in document order (fueled by input length). -/
def extractItemsAux : Nat → List Char → List (List Char)
  | 0, _ => []
  | fuel + 1, s =>
    match splitFirst itemOpen s with
    | none => []
    | some (_, afterOpen) =>
      match splitFirst itemClose afterOpen with
      | none => []
      | some (content, afterClose) => content :: extractItemsAux fuel afterClose

/-- Item contents of the feed, in document order. -/
def extractItems (s : List Char) : List (List Char) :=
  extractItemsAux (s.length + 1) s

/-- Scan of a lazy `opn(.*?)cls` regex: leftmost `opn` occurrence whose
following text reaches `cls` through dot-matchable chars; otherwise retry
from after that occurrence. -/
def matchLazyBetweenAux (opn cls : List Char) : Nat → List Char → Option (List Char)
  | 0, _ => none
  | fuel + 1, s =>
    match splitFirst opn s with
    | none => none
    | some (_, afterOpen) =>
      match matchDotLazy cls afterOpen with
      | some (content, _) => some content
      | none => matchLazyBetweenAux opn cls fuel afterOpen

/-- Capture of a lazy `opn(.*?)cls` regex over `s`. -/
def matchLazyBetween (opn cls : List Char) (s : List Char) : Option (List Char) :=
  matchLazyBetweenAux opn cls (s.length + 1) s

/-- Embeds the `titleRegex` alternation
`<title><![CDATA[(.*?)]]></title>|<title>(.*?)</title>`: at each
`<title>` occurrence (leftmost first) the CDATA alternative is preferred;
the value is the matched alternative's capture. -/
def matchTitleCaptureAux : Nat → List Char → Option (List Char)
  | 0, _ => none
  | fuel + 1, s =>
    match splitFirst "<title>".data s with
    | none => none
    | some (_, afterOpen) =>
      if "<![CDATA[".data.isPrefixOf afterOpen then
        match matchDotLazy "]]></title>".data (afterOpen.drop 9) with
        | some (content, _) => some content
        | none =>
          match matchDotLazy "</title>".data afterOpen with
          | some (content, _) => some content
          | none => matchTitleCaptureAux fuel afterOpen
      else
        match matchDotLazy "</title>".data afterOpen with
        | some (content, _) => some content
        | none => matchTitleCaptureAux fuel afterOpen

/-- Capture of the title regex over an item body. -/
def matchTitleCapture (s : List Char) : Option (List Char) :=
  matchTitleCaptureAux (s.length + 1) s

/-- Consumes `[^>]*>`: everything up to and including the first `>`. -/
def takeToGt : List Char → Option (List Char)
  | [] => none
  | c :: rest => if c = '>' then some rest else takeToGt rest

/-- Embeds `sourceRegex` `<source[^>]*>(.*?)</source>`. -/
def matchSourceCaptureAux : Nat → List Char → Option (List Char)
  | 0, _ => none
  | fuel + 1, s =>
    match splitFirst "<source".data s with
    | none => none
    | some (_, afterOpen) =>
      match takeToGt afterOpen with
      | none => none
      | some afterGt =>
        match matchDotLazy "</source>".data afterGt with
        | some (content, _) => some content
        | none => matchSourceCaptureAux fuel afterOpen

/-- Capture of the source regex over an item body. -/
def matchSourceCapture (s : List Char) : Option (List Char) :=
  matchSourceCaptureAux (s.length + 1) s

/-- JS `x || d` at the captured-chars level (a failed match and an empty
capture are both falsy). -/
def jsOrChars (x : Option (List Char)) (d : List Char) : List Char :=
  match x with
  | none => d
  | some s => if s = [] then d else s

/-- Body of one iteration of the RSS item loop: extract title/link/pubDate/
source with their JS-falsy defaults and push an article only when both the
title and the link are nonempty (`if (title && url)`). -/
def rssItemArticle (nowIso : String) (item : List Char) : Option NewsArticle :=
  let title := jsOrChars (matchTitleCapture item) []
  let url := jsOrChars (matchLazyBetween "<link>".data "</link>".data item) []
  let publishedAt := jsOrChars (matchLazyBetween "<pubDate>".data "</pubDate>".data item) nowIso.data
  let src := jsOrChars (matchSourceCapture item) "Google News".data
  if title ≠ [] ∧ url ≠ [] then
    some ⟨String.mk title, none, none, String.mk url, String.mk src,
      String.mk publishedAt, none⟩
  else none

/-- Embeds the `while ((match = itemRegex.exec(xmlText)) !== null && count <
maxArticles)` loop: the count advances only when an article is pushed. -/
def rssCollect (nowIso : String) (maxArticles : Nat) :
    List (List Char) → Nat → List NewsArticle
  | [], _ => []
  | item :: rest, count =>
    if count < maxArticles then
      match rssItemArticle nowIso item with
      | some a => a :: rssCollect nowIso maxArticles rest (count + 1)
      | none => rssCollect nowIso maxArticles rest count
    else []

/-- Articles produced by the RSS fallback for a feed text. -/
def rssArticles (nowIso : String) (xmlText : String) (maxArticles : Nat) :
    List NewsArticle :=
  rssCollect nowIso maxArticles (extractItems xmlText.data) 0

/-- Third stage of `execute` (Google News RSS, keyless): on a successful
fetch the collected articles are returned (also when zero were collected);
on a rejected fetch the final empty-result shape is returned. -/
def executeRssStage (topic : String) (maxArticles : Nat)
    (rssResp : Except Unit String) (nowIso : String) : FetchNewsResult :=
  match rssResp with
  | .error _ => ⟨[], 0, topic⟩
  | .ok xmlText =>
    ⟨rssArticles nowIso xmlText maxArticles,
     (rssArticles nowIso xmlText maxArticles).length, topic⟩

/-- Second stage of `execute` (GNews): skipped without a credential; a
response with an `articles` field (also an empty one) is returned
immediately; a rejected fetch or a response without the field falls through
to the RSS stage. -/
def executeGNewsStage (topic : String) (maxArticles : Nat)
    (gnewsKey : Option String) (gnewsResp : Except Unit GNewsData)
    (rssResp : Except Unit String) (nowIso : String) : FetchNewsResult :=
  if keyPresent gnewsKey then
    match gnewsResp with
    | .error _ => executeRssStage topic maxArticles rssResp nowIso
    | .ok d =>
      match d.articles with
      | some arts =>
        ⟨arts.map (normalizeGNews nowIso),
         jsOrNum d.totalArticles (arts.length : Int), topic⟩
      | none => executeRssStage topic maxArticles rssResp nowIso
  else executeRssStage topic maxArticles rssResp nowIso

/-- Embeds `fetchNewsTool.execute`: NewsAPI (credentialed, success signal
`status === "ok"`), then GNews (credentialed, success signal = presence of
the `articles` field), then the keyless RSS fallback, then the empty-result
shape.  The function is total: no failure escapes to the caller. -/
def fetchNewsExecute (topic : String) (maxArticles : Nat)
    (newsApiKey gnewsKey : Option String)
    (newsApiResp : Except Unit NewsApiData) (gnewsResp : Except Unit GNewsData)
    (rssResp : Except Unit String) (nowIso : String) : FetchNewsResult :=
  if keyPresent newsApiKey then
    match newsApiResp with
    | .error _ => executeGNewsStage topic maxArticles gnewsKey gnewsResp rssResp nowIso
    | .ok d =>
      if d.status = "ok" then
        ⟨d.articles.map (normalizeNewsApi nowIso), d.totalResults, topic⟩
      else executeGNewsStage topic maxArticles gnewsKey gnewsResp rssResp nowIso
  else executeGNewsStage topic maxArticles gnewsKey gnewsResp rssResp nowIso

end FXV

/-! ## Claims C3 and C6 -/

namespace FXV

/-- Claim C3: the provider chain is tried in the fixed order NewsAPI, GNews,
RSS; a provider without a credential is skipped (the result does not depend
on its response at all); the first structural success returns immediately —
for NewsAPI the flag `status = "ok"`, for GNews the presence of the
`articles` field, even when it holds zero articles — and later providers are
never attempted (the result does not depend on their responses).  In the
claim's scenario (NewsAPI responding with a non-ok status, GNews responding
with an articles field), the result is GNews's normalized articles and the
RSS provider is never attempted. -/
theorem claim_C3 (topic : String) (maxArticles : Nat)
    (newsApiKey gnewsKey : Option String)
    (newsApiResp : Except Unit NewsApiData) (gnewsResp : Except Unit GNewsData)
    (rssResp : Except Unit String) (nowIso : String) :
    (∀ d, keyPresent newsApiKey = true → newsApiResp = .ok d → d.status = "ok" →
      fetchNewsExecute topic maxArticles newsApiKey gnewsKey newsApiResp gnewsResp rssResp nowIso
        = ⟨d.articles.map (normalizeNewsApi nowIso), d.totalResults, topic⟩) ∧
    (∀ d g l, keyPresent newsApiKey = true → newsApiResp = .ok d → d.status ≠ "ok" →
      keyPresent gnewsKey = true → gnewsResp = .ok g → g.articles = some l →
      fetchNewsExecute topic maxArticles newsApiKey gnewsKey newsApiResp gnewsResp rssResp nowIso
        = ⟨l.map (normalizeGNews nowIso), jsOrNum g.totalArticles (l.length : Int), topic⟩) ∧
    (∀ g l r1 r2, keyPresent gnewsKey = true → gnewsResp = .ok g → g.articles = some l →
      fetchNewsExecute topic maxArticles newsApiKey gnewsKey newsApiResp gnewsResp r1 nowIso
        = fetchNewsExecute topic maxArticles newsApiKey gnewsKey newsApiResp gnewsResp r2 nowIso) ∧
    (keyPresent newsApiKey = false → ∀ a1 a2,
      fetchNewsExecute topic maxArticles newsApiKey gnewsKey a1 gnewsResp rssResp nowIso
        = fetchNewsExecute topic maxArticles newsApiKey gnewsKey a2 gnewsResp rssResp nowIso) ∧
    (keyPresent gnewsKey = false → ∀ b1 b2,
      fetchNewsExecute topic maxArticles newsApiKey gnewsKey newsApiResp b1 rssResp nowIso
        = fetchNewsExecute topic maxArticles newsApiKey gnewsKey newsApiResp b2 rssResp nowIso) := by
  refine ⟨?_, ?_, ?_, ?_, ?_⟩
  · intro d hk hr hs
    simp [fetchNewsExecute, hk, hr, hs]
  · intro d g l hk hr hs hgk hgr hga
    simp [fetchNewsExecute, executeGNewsStage, hk, hr, hs, hgk, hgr, hga]
  · intro g l r1 r2 hgk hgr hga
    unfold fetchNewsExecute
    have hstage : ∀ r : Except Unit String,
        executeGNewsStage topic maxArticles gnewsKey gnewsResp r nowIso
          = ⟨l.map (normalizeGNews nowIso), jsOrNum g.totalArticles (l.length : Int), topic⟩ := by
      intro r
      simp [executeGNewsStage, hgk, hgr, hga]
    split
    · cases newsApiResp with
      | error e => rw [hstage r1, hstage r2]
      | ok d =>
        by_cases hs : d.status = "ok"
        · simp [hs]
        · simp [hs, hstage r1, hstage r2]
    · rw [hstage r1, hstage r2]
  · intro hk a1 a2
    simp [fetchNewsExecute, hk]
  · intro hgk b1 b2
    unfold fetchNewsExecute
    have hstage : ∀ b : Except Unit GNewsData,
        executeGNewsStage topic maxArticles gnewsKey b rssResp nowIso
          = executeRssStage topic maxArticles rssResp nowIso := by
      intro b
      simp [executeGNewsStage, hgk]
    split
    · cases newsApiResp with
      | error e => rw [hstage b1, hstage b2]
      | ok d =>
        by_cases hs : d.status = "ok"
        · simp [hs]
        · simp [hs, hstage b1, hstage b2]
    · rw [hstage b1, hstage b2]

/-- Witness for claim C3 at concrete inputs: NewsAPI present with status
"error", GNews present with an articles field holding one article; the
result is GNews's normalization regardless of the RSS response. -/
theorem claim_C3_witness :
    fetchNewsExecute "x" 5 (some "ka") (some "kb")
      (.ok ⟨"error", [], 0⟩)
      (.ok ⟨some [⟨some "T", none, none, some "u", none, none, none⟩], some 7⟩)
      (.error ()) "now"
      = ⟨[⟨"T", none, none, "u", "Unknown", "now", none⟩], 7, "x"⟩ := by
  have h := (claim_C3 "x" 5 (some "ka") (some "kb")
    (.ok ⟨"error", [], 0⟩)
    (.ok ⟨some [⟨some "T", none, none, some "u", none, none, none⟩], some 7⟩)
    (.error ()) "now").2.1
    ⟨"error", [], 0⟩
    ⟨some [⟨some "T", none, none, some "u", none, none, none⟩], some 7⟩
    [⟨some "T", none, none, some "u", none, none, none⟩]
    (by decide) rfl (by decide) (by decide) rfl rfl
  rw [h]
  simp [normalizeGNews, jsOrString, jsOrNull, jsOrNum]

/-- Claim C6: with both credentials absent and the RSS fetch failing, the
result is exactly the empty-result shape `{articles: [], totalResults: 0,
query: topic}`; the embedded `execute` is a total function, so no error
reaches the caller. -/
theorem claim_C6 (topic : String) (maxArticles : Nat)
    (newsApiResp : Except Unit NewsApiData) (gnewsResp : Except Unit GNewsData)
    (nowIso : String) :
    fetchNewsExecute topic maxArticles none none newsApiResp gnewsResp (.error ()) nowIso
      = ⟨[], 0, topic⟩ := by
  simp [fetchNewsExecute, executeGNewsStage, executeRssStage, keyPresent]

end FXV

namespace FXV

/-! ## Daily scheduler: state machine (lesson.scheduler.ts)

The module state is `schedulerTimeout` (the pending one-shot timer handle or
null) and the boolean `isRunning`.  The observable phases are:

* `idle`: no timer pending, no job in flight (`schedulerTimeout = null`);
* `armed`: a single-shot timer pending (`scheduleNextRun` was called);
* `running`: the timer fired, the guard `if (!isRunning)` admitted the run,
  `isRunning = true` and the job body is executing.

Events are the externally visible occurrences: `start` (the CLI calls
`startScheduler`, which ends in `scheduleNextRun`), `fire` (the armed timer
fires and the guard admits), `finish jobFailed` (the job body ends —
`generateAndSaveLesson` either returned or threw; the throw is caught and
logged by the handler's catch block, and the `finally` block clears
`isRunning` and calls `scheduleNextRun` in both cases), and `stop`
(`stopScheduler` clears any pending timer; a job already in flight is not
interrupted and its `finally` block still re-arms).  The system is
single-threaded, so each event is one atomic section of handler code. -/

/-- Observable phase of the scheduler module state. -/
inductive SchedulerPhase where
  | idle
  | armed
  | running
  deriving DecidableEq, Repr

/-- Externally visible scheduler events; `finish jobFailed` covers both a
successful job and one that threw. -/
inductive SchedulerEvent where
  | start
  | fire
  | finish (jobFailed : Bool)
  | stop
  deriving DecidableEq, Repr

/-- One step of the scheduler: `none` means the event cannot occur in that
phase (a timer can only fire while armed; a job can only finish while
running; the CLI starts the scheduler once, from idle). -/
def schedulerStep : SchedulerPhase → SchedulerEvent → Option SchedulerPhase
  | .idle, .start => some .armed
  | .armed, .fire => some .running
  | .running, .finish _ => some .armed
  | .idle, .stop => some .idle
  | .armed, .stop => some .idle
  | .running, .stop => some .running
  | _, _ => none

/-- Phases reachable from the initial (module-load) state. -/
inductive SchedulerReachable : SchedulerPhase → Prop where
  | init : SchedulerReachable .idle
  | step (p : SchedulerPhase) (e : SchedulerEvent) (q : SchedulerPhase) :
      SchedulerReachable p → schedulerStep p e = some q → SchedulerReachable q

end FXV

/-! ## Claim C5 -/

namespace FXV

/-- Claim C5: when the armed timer fires and the guard admits the run the
scheduler enters `running` (flag set, job executing); for every job outcome,
success or exception, finishing returns the scheduler to `armed` (flag
cleared, a fresh timer computed and pending) — so from every reachable state
a finished run, failed or not, always leaves a pending timer; and the only
transition into `idle` is an explicit `stop`. -/
theorem claim_C5 :
    (schedulerStep .armed .fire = some .running) ∧
    (∀ jobFailed : Bool, schedulerStep .running (.finish jobFailed) = some .armed) ∧
    (∀ (p : SchedulerPhase) (jobFailed : Bool) (q : SchedulerPhase),
      SchedulerReachable p → schedulerStep p (.finish jobFailed) = some q →
      q = .armed) ∧
    (∀ (p : SchedulerPhase) (e : SchedulerEvent) (q : SchedulerPhase),
      schedulerStep p e = some q → q = .idle → e = .stop) := by
  refine ⟨rfl, fun _ => rfl, ?_, ?_⟩
  · intro p jobFailed q _ hstep
    cases p <;> simp_all [schedulerStep]
  · intro p e q hstep hq
    subst hq
    cases p <;> cases e <;> simp [schedulerStep] at hstep <;> rfl

/-- Witness for claim C5 at concrete inputs: a failed run from the running
phase re-arms, and the armed-to-idle transition taken by `stop` is the stop
event. -/
theorem claim_C5_witness :
    (SchedulerPhase.armed = SchedulerPhase.armed) ∧
    (SchedulerEvent.stop = SchedulerEvent.stop) :=
  ⟨(claim_C5).2.2.1 .running true .armed
      (.step .armed .fire .running (.step .idle .start .armed .init rfl) rfl) rfl,
   (claim_C5).2.2.2 .armed .stop .idle rfl rfl⟩

end FXV

namespace FXV

/-! ## JSON model

The cache list operations call the ECMAScript builtins `JSON.parse` and
`JSON.stringify`.  They are embedded over the RFC 8259 grammar used by
ECMA-262.  Modelling notes:

* number values keep their source token text (`num tok`); ECMAScript
  re-serializes a number from its IEEE-754 double value, which agrees with
  the token for canonically written numbers — and every number this
  repository serializes is written canonically;
* strings are Unicode scalar sequences (lone-surrogate `\u` escapes are out
  of scope);
* object fields are kept in document order; duplicate keys (which
  ECMAScript collapses keeping the last) do not arise from values produced
  by `JSON.stringify` of this repository's records. -/

/-- JSON value. -/
inductive Json where
  | null
  | bool (b : Bool)
  | num (token : String)
  | str (s : String)
  | arr (elems : List Json)
  | obj (fields : List (String × Json))
  deriving Repr

/-! Explicit decidable equality for `Json` (the nested inductive defeats the
deriving handler). -/
mutual

def jsonDecEq : (a : Json) → (b : Json) → Decidable (a = b)
  | .null, .null => isTrue rfl
  | .bool a, .bool b =>
      if h : a = b then isTrue (by rw [h]) else isFalse (by intro hc; cases hc; exact h rfl)
  | .num a, .num b =>
      if h : a = b then isTrue (by rw [h]) else isFalse (by intro hc; cases hc; exact h rfl)
  | .str a, .str b =>
      if h : a = b then isTrue (by rw [h]) else isFalse (by intro hc; cases hc; exact h rfl)
  | .arr a, .arr b =>
      match jsonListDecEq a b with
      | isTrue h => isTrue (by rw [h])
      | isFalse h => isFalse (by intro hc; cases hc; exact h rfl)
  | .obj a, .obj b =>
      match jsonFieldsDecEq a b with
      | isTrue h => isTrue (by rw [h])
      | isFalse h => isFalse (by intro hc; cases hc; exact h rfl)
  | .null, .bool _ => isFalse (by intro h; cases h)
  | .null, .num _ => isFalse (by intro h; cases h)
  | .null, .str _ => isFalse (by intro h; cases h)
  | .null, .arr _ => isFalse (by intro h; cases h)
  | .null, .obj _ => isFalse (by intro h; cases h)
  | .bool _, .null => isFalse (by intro h; cases h)
  | .bool _, .num _ => isFalse (by intro h; cases h)
  | .bool _, .str _ => isFalse (by intro h; cases h)
  | .bool _, .arr _ => isFalse (by intro h; cases h)
  | .bool _, .obj _ => isFalse (by intro h; cases h)
  | .num _, .null => isFalse (by intro h; cases h)
  | .num _, .bool _ => isFalse (by intro h; cases h)
  | .num _, .str _ => isFalse (by intro h; cases h)
  | .num _, .arr _ => isFalse (by intro h; cases h)
  | .num _, .obj _ => isFalse (by intro h; cases h)
  | .str _, .null => isFalse (by intro h; cases h)
  | .str _, .bool _ => isFalse (by intro h; cases h)
  | .str _, .num _ => isFalse (by intro h; cases h)
  | .str _, .arr _ => isFalse (by intro h; cases h)
  | .str _, .obj _ => isFalse (by intro h; cases h)
  | .arr _, .null => isFalse (by intro h; cases h)
  | .arr _, .bool _ => isFalse (by intro h; cases h)
  | .arr _, .num _ => isFalse (by intro h; cases h)
  | .arr _, .str _ => isFalse (by intro h; cases h)
  | .arr _, .obj _ => isFalse (by intro h; cases h)
  | .obj _, .null => isFalse (by intro h; cases h)
  | .obj _, .bool _ => isFalse (by intro h; cases h)
  | .obj _, .num _ => isFalse (by intro h; cases h)
  | .obj _, .str _ => isFalse (by intro h; cases h)
  | .obj _, .arr _ => isFalse (by intro h; cases h)

def jsonListDecEq : (a : List Json) → (b : List Json) → Decidable (a = b)
  | [], [] => isTrue rfl
  | [], _ :: _ => isFalse (by intro h; cases h)
  | _ :: _, [] => isFalse (by intro h; cases h)
  | x :: xs, y :: ys =>
      match jsonDecEq x y with
      | isTrue h1 =>
        match jsonListDecEq xs ys with
        | isTrue h2 => isTrue (by rw [h1, h2])
        | isFalse h2 => isFalse (by intro hc; cases hc; exact h2 rfl)
      | isFalse h1 => isFalse (by intro hc; cases hc; exact h1 rfl)

def jsonFieldsDecEq : (a : List (String × Json)) → (b : List (String × Json)) → Decidable (a = b)
  | [], [] => isTrue rfl
  | [], _ :: _ => isFalse (by intro h; cases h)
  | _ :: _, [] => isFalse (by intro h; cases h)
  | (k, v) :: xs, (k2, v2) :: ys =>
      if hk : k = k2 then
        match jsonDecEq v v2 with
        | isTrue h1 =>
          match jsonFieldsDecEq xs ys with
          | isTrue h2 => isTrue (by rw [hk, h1, h2])
          | isFalse h2 => isFalse (by intro hc; cases hc; exact h2 rfl)
        | isFalse h1 => isFalse (by intro hc; cases hc; exact h1 rfl)
      else isFalse (by intro hc; cases hc; exact hk rfl)

end

instance : DecidableEq Json := jsonDecEq

/-- Opening brace character. -/
def braceOpen : Char := Char.ofNat 123

/-- Closing brace character. -/
def braceClose : Char := Char.ofNat 125

/-- Lowercase hex digit, as emitted by `JSON.stringify` control-character
escapes. -/
def hexDigit (n : Nat) : Char :=
  if n < 10 then Char.ofNat (48 + n) else Char.ofNat (87 + n)

/-- Escape of one character inside a JSON string, per ECMA `QuoteJSONString`:
quote, backslash, the two-character escapes for backspace, tab, line feed,
form feed, carriage return, `\u00xx` for the remaining control characters,
and everything else literally. -/
def escapeChar (c : Char) : List Char :=
  if c = '"' then ['\\', '"']
  else if c = '\\' then ['\\', '\\']
  else if c = Char.ofNat 8 then ['\\', 'b']
  else if c = Char.ofNat 9 then ['\\', 't']
  else if c = '\n' then ['\\', 'n']
  else if c = Char.ofNat 12 then ['\\', 'f']
  else if c = '\r' then ['\\', 'r']
  else if c.toNat < 32 then ['\\', 'u', '0', '0', hexDigit (c.toNat / 16), hexDigit (c.toNat % 16)]
  else [c]

/-- Escaped body of a JSON string. -/
def escapeString (s : List Char) : List Char := (s.map escapeChar).flatten

/-- Quoted JSON string. -/
def quoteString (s : List Char) : List Char := '"' :: escapeString s ++ ['"']

/-! Embeds `JSON.stringify` (no indent argument, as called by the source):
`stringifyVal` serializes one value, `stringifyArr` and `stringifyObj` the
comma-separated element and member lists. -/
mutual

def stringifyVal : Json → List Char
  | .null => "null".data
  | .bool true => "true".data
  | .bool false => "false".data
  | .num tok => tok.data
  | .str s => quoteString s.data
  | .arr l => '[' :: stringifyArr l ++ [']']
  | .obj l => braceOpen :: stringifyObj l ++ [braceClose]

def stringifyArr : List Json → List Char
  | [] => []
  | [x] => stringifyVal x
  | x :: y :: xs => stringifyVal x ++ ',' :: stringifyArr (y :: xs)

def stringifyObj : List (String × Json) → List Char
  | [] => []
  | [(k, v)] => quoteString k.data ++ ':' :: stringifyVal v
  | (k, v) :: y :: xs => quoteString k.data ++ ':' :: stringifyVal v ++ ',' :: stringifyObj (y :: xs)

end

/-- Embeds `JSON.stringify` at `String` type. -/
def Json.stringify (j : Json) : String := String.mk (stringifyVal j)

/-! ### The parser (ECMA / RFC 8259 grammar) -/

/-- JSON insignificant whitespace (space, tab, line feed, carriage return). -/
def jsonWsChar (c : Char) : Bool :=
  c = ' ' || c = Char.ofNat 9 || c = '\n' || c = '\r'

/-- Skips insignificant whitespace. -/
def skipWs : List Char → List Char
  | [] => []
  | c :: r => if jsonWsChar c then skipWs r else c :: r

/-- ASCII decimal digit test. -/
def isDigit (c : Char) : Bool := 48 ≤ c.toNat && c.toNat ≤ 57

/-- Value of a hex digit (both cases accepted, as in JSON `\u` escapes). -/
def hexVal (c : Char) : Option Nat :=
  if 48 ≤ c.toNat ∧ c.toNat ≤ 57 then some (c.toNat - 48)
  else if 97 ≤ c.toNat ∧ c.toNat ≤ 102 then some (c.toNat - 87)
  else if 65 ≤ c.toNat ∧ c.toNat ≤ 70 then some (c.toNat - 55)
  else none

/-- Prepends a char to the first component of a string-parser result. -/
def consFst (c : Char) :
    Option (List Char × List Char) → Option (List Char × List Char)
  | none => none
  | some (s, rest) => some (c :: s, rest)

/-- Parses a JSON string body after the opening quote: literal characters
(controls are invalid unescaped), the nine escapes, `\uXXXX`; returns the
decoded content and the input after the closing quote. -/
def parseStringBody : List Char → Option (List Char × List Char)
  | [] => none
  | c :: rest =>
    if c = '"' then some ([], rest)
    else if c = '\\' then
      match rest with
      | [] => none
      | e :: rest2 =>
        if e = '"' then consFst '"' (parseStringBody rest2)
        else if e = '\\' then consFst '\\' (parseStringBody rest2)
        else if e = '/' then consFst '/' (parseStringBody rest2)
        else if e = 'b' then consFst (Char.ofNat 8) (parseStringBody rest2)
        else if e = 'f' then consFst (Char.ofNat 12) (parseStringBody rest2)
        else if e = 'n' then consFst '\n' (parseStringBody rest2)
        else if e = 'r' then consFst '\r' (parseStringBody rest2)
        else if e = 't' then consFst (Char.ofNat 9) (parseStringBody rest2)
        else if e = 'u' then
          match rest2 with
          | h1 :: h2 :: h3 :: h4 :: rest3 =>
            match hexVal h1, hexVal h2, hexVal h3, hexVal h4 with
            | some a, some b, some c2, some d =>
              consFst (Char.ofNat (4096 * a + 256 * b + 16 * c2 + d)) (parseStringBody rest3)
            | _, _, _, _ => none
          | _ => none
        else none
    else if c.toNat < 32 then none
    else consFst c (parseStringBody rest)

/-- Splits the maximal run of leading decimal digits. -/
def takeDigits : List Char → List Char × List Char
  | [] => ([], [])
  | c :: rest =>
    if isDigit c then
      let dr := takeDigits rest
      (c :: dr.1, dr.2)
    else ([], c :: rest)

/-- Integer part of a JSON number: `0`, or a nonzero digit followed by
digits. -/
def parseIntPart : List Char → Option (List Char × List Char)
  | [] => none
  | c :: rest =>
    if c = '0' then some (['0'], rest)
    else if isDigit c then
      let dr := takeDigits rest
      some (c :: dr.1, dr.2)
    else none

/-- Optional fraction part `.digits`; anything else is left unconsumed. -/
def parseFrac : List Char → List Char × List Char
  | [] => ([], [])
  | c :: rest =>
    if c = '.' then
      let dr := takeDigits rest
      if dr.1 = [] then ([], c :: rest) else (c :: dr.1, dr.2)
    else ([], c :: rest)

/-- Optional exponent part `e|E [+|-] digits`; anything else is left
unconsumed. -/
def parseExp : List Char → List Char × List Char
  | [] => ([], [])
  | c :: rest =>
    if c = 'e' ∨ c = 'E' then
      match rest with
      | [] => ([], [c])
      | s :: rest2 =>
        if s = '+' ∨ s = '-' then
          let dr := takeDigits rest2
          if dr.1 = [] then ([], c :: s :: rest2) else (c :: s :: dr.1, dr.2)
        else
          let dr := takeDigits rest
          if dr.1 = [] then ([], c :: rest) else (c :: dr.1, dr.2)
    else ([], c :: rest)

/-- JSON number token: optional minus, integer part, optional fraction and
exponent; returns the token text and the rest (maximal munch). -/
def parseNumberToken : List Char → Option (List Char × List Char)
  | [] => none
  | c :: rest =>
    if c = '-' then
      match parseIntPart rest with
      | none => none
      | some (ip, r1) =>
        let fr := parseFrac r1
        let er := parseExp fr.2
        some ('-' :: ip ++ fr.1 ++ er.1, er.2)
    else
      match parseIntPart (c :: rest) with
      | none => none
      | some (ip, r1) =>
        let fr := parseFrac r1
        let er := parseExp fr.2
        some (ip ++ fr.1 ++ er.1, er.2)

/-! Recursive JSON value/element/member parsers.  The fuel argument only
bounds the recursion depth; every recursive call consumes input, so the
wrapper's fuel (`2·length + 2`) never runs out on any input. -/
mutual

def parseValue : Nat → List Char → Option (Json × List Char)
  | 0, _ => none
  | fuel + 1, s =>
    match s with
    | [] => none
    | c :: rest =>
      if c = 'n' then
        if "ull".data.isPrefixOf rest then some (.null, rest.drop 3) else none
      else if c = 't' then
        if "rue".data.isPrefixOf rest then some (.bool true, rest.drop 3) else none
      else if c = 'f' then
        if "alse".data.isPrefixOf rest then some (.bool false, rest.drop 4) else none
      else if c = '"' then
        match parseStringBody rest with
        | some (content, r) => some (.str (String.mk content), r)
        | none => none
      else if c = '[' then
        match skipWs rest with
        | [] => none
        | c2 :: r2 =>
          if c2 = ']' then some (.arr [], r2)
          else
            match parseElements fuel (c2 :: r2) with
            | some (l, r) => some (.arr l, r)
            | none => none
      else if c = braceOpen then
        match skipWs rest with
        | [] => none
        | c2 :: r2 =>
          if c2 = braceClose then some (.obj [], r2)
          else
            match parseMembers fuel (c2 :: r2) with
            | some (l, r) => some (.obj l, r)
            | none => none
      else
        match parseNumberToken (c :: rest) with
        | some (tok, r) => some (.num (String.mk tok), r)
        | none => none

def parseElements : Nat → List Char → Option (List Json × List Char)
  | 0, _ => none
  | fuel + 1, s =>
    match parseValue fuel (skipWs s) with
    | none => none
    | some (v, r) =>
      match skipWs r with
      | [] => none
      | c2 :: r2 =>
        if c2 = ',' then
          match parseElements fuel r2 with
          | some (l, r3) => some (v :: l, r3)
          | none => none
        else if c2 = ']' then some ([v], r2)
        else none

def parseMembers : Nat → List Char → Option (List (String × Json) × List Char)
  | 0, _ => none
  | fuel + 1, s =>
    match skipWs s with
    | [] => none
    | c0 :: r0 =>
      if c0 = '"' then
        match parseStringBody r0 with
        | none => none
        | some (key, r1) =>
          match skipWs r1 with
          | [] => none
          | c1 :: r2 =>
            if c1 = ':' then
              match parseValue fuel (skipWs r2) with
              | none => none
              | some (v, r3) =>
                match skipWs r3 with
                | [] => none
                | c3 :: r4 =>
                  if c3 = ',' then
                    match parseMembers fuel r4 with
                    | some (l, r5) => some ((String.mk key, v) :: l, r5)
                    | none => none
                  else if c3 = braceClose then some ([(String.mk key, v)], r4)
                  else none
            else none
      else none

end

/-- Embeds `JSON.parse`: a single value surrounded by insignificant
whitespace; `none` stands for a thrown `SyntaxError`. -/
def Json.parse (s : String) : Option Json :=
  match parseValue (2 * s.data.length + 2) (skipWs s.data) with
  | some (v, r) => if skipWs r = [] then some v else none
  | none => none

/-! Well-formedness used by the round-trip theorem: number tokens are
complete JSON number tokens (exactly what the token parser accepts), nested
values recursively so.  Every value `JSON.parse` can produce is of this
shape. -/
mutual

def jsonWF : Json → Bool
  | .null => true
  | .bool _ => true
  | .num tok => decide (parseNumberToken tok.data = some (tok.data, []))
  | .str _ => true
  | .arr l => jsonListWF l
  | .obj l => jsonFieldsWF l

def jsonListWF : List Json → Bool
  | [] => true
  | x :: xs => jsonWF x && jsonListWF xs

def jsonFieldsWF : List (String × Json) → Bool
  | [] => true
  | x :: xs => jsonWF x.2 && jsonFieldsWF xs

end

end FXV

namespace FXV

/-! ## Cache list operations (lRange / rPush / lTrim)

These operate on the raw `store.get` (no expiry check — unlike the client's
`get`, the list operations read the entry whatever its expiry). -/

/-- JS `Array.prototype.slice` index normalization: negative indices count
from the end, then clamp into `[0, len]`. -/
def jsSliceIdx (len : Nat) (i : Int) : Nat :=
  if i < 0 then ((len : Int) + i).toNat else min i.toNat len

/-- JS `arr.slice(start)` (to the end). -/
def jsSlice (l : List Json) (start : Int) : List Json :=
  l.drop (jsSliceIdx l.length start)

/-- JS `arr.slice(start, stop)` (element indices in `[start, stop)` after
normalization). -/
def jsSliceRange (l : List Json) (start stop : Int) : List Json :=
  (l.take (jsSliceIdx l.length stop)).drop (jsSliceIdx l.length start)

/-- The 30-day expiry horizon the list operations write
(`Date.now() + 30 * 24 * 60 * 60 * 1000`). -/
def thirtyDaysMs : Int := 30 * 24 * 60 * 60 * 1000

namespace InMem

/-- Embeds the client's `lRange`: absent key, parse failure and non-array
values all yield `[]`; `stop = -1` means through the end, otherwise indices
`start..stop` inclusive (`slice(start, stop + 1)`); elements are re-serialized
with `JSON.stringify`. -/
def lRange (s : CacheStore) (k : String) (start stop : Int) : List String :=
  match s k with
  | none => []
  | some e =>
    match Json.parse e.value with
    | some (.arr arr) =>
      if stop = -1 then (jsSlice arr start).map Json.stringify
      else (jsSliceRange arr start (stop + 1)).map Json.stringify
    | some _ => []
    | none => []

/-- Embeds the client's `rPush`: the stored entry is decoded leniently
(absent, unparsable or non-array becomes `[]` — the `try`/`catch` and
`Array.isArray` checks), but `JSON.parse(value)` runs outside any guard, so
an invalid `value` throws out of `rPush` (`none`); on success the appended
list is re-serialized under the fixed 30-day expiry. -/
def rPush (now : Int) (s : CacheStore) (k : String) (value : String) :
    Option CacheStore :=
  let arr : List Json :=
    match s k with
    | none => []
    | some e =>
      match Json.parse e.value with
      | some (.arr a) => a
      | some _ => []
      | none => []
  match Json.parse value with
  | none => none
  | some j =>
    some (s.set k ⟨Json.stringify (.arr (arr ++ [j])), now + 30 * 24 * 60 * 60 * 1000⟩)

/-- Embeds the client's `lTrim`: absent key, parse failure and non-array
values are silent no-ops; otherwise the slice survivors are re-serialized
under the fixed 30-day expiry (`stop = -1` meaning through the end). -/
def lTrim (now : Int) (s : CacheStore) (k : String) (start stop : Int) :
    CacheStore :=
  match s k with
  | none => s
  | some e =>
    match Json.parse e.value with
    | none => s
    | some j =>
      match j with
      | .arr arr =>
        s.set k ⟨Json.stringify
          (.arr (if stop = -1 then jsSlice arr start else jsSliceRange arr start (stop + 1))),
          now + 30 * 24 * 60 * 60 * 1000⟩
      | _ => s

end InMem

end FXV

/-! ## Claims C8 and C10 -/

namespace FXV

/-- Counterexample to claim C8 as stated: on the key holding the well-formed
two-element list `["a","b"]`, `lTrim(k, 1, -1)` is not a no-op — it drops
the first element (`slice(start)` drops a positive number of leading
elements), leaving `["b"]`. -/
theorem claim_C8_cex :
    InMem.lRange (CacheStore.empty.set "k" ⟨"[\"a\",\"b\"]", 99⟩) "k" 0 (-1)
      = ["\"a\"", "\"b\""] ∧
    InMem.lRange
      (InMem.lTrim 0 (CacheStore.empty.set "k" ⟨"[\"a\",\"b\"]", 99⟩) "k" 1 (-1))
      "k" 0 (-1)
      = ["\"b\""] := by
  constructor
  · decide
  · decide

/-- Claim C8, amended: for a key holding a well-formed list,
`lTrim(key, start, -1)` keeps exactly the slice of the list from index
`start` to the end (JS `slice` semantics: a negative `start` counts from the
end, clamped), re-serialized under a refreshed 30-day expiry.  It keeps the
whole list whenever `start = 0` or `start ≤ -length`, and for a nonempty
list only then — so `trim(start, -1)` is not a no-op for every `start` as
claimed (the `trim(-100, -1)` use keeps the whole list exactly when the list
has at most 100 elements). -/
theorem claim_C8 (now : Int) (s : CacheStore) (k : String) (start : Int)
    (e : CacheEntry) (l : List Json)
    (he : s k = some e) (hp : Json.parse e.value = some (.arr l)) :
    (InMem.lTrim now s k start (-1)) k
      = some ⟨Json.stringify (.arr (jsSlice l start)), now + thirtyDaysMs⟩ ∧
    ((start = 0 ∨ start + (l.length : Int) ≤ 0) → jsSlice l start = l) ∧
    (l ≠ [] → jsSlice l start = l → (start = 0 ∨ start + (l.length : Int) ≤ 0)) := by
  refine ⟨?_, ?_, ?_⟩
  · simp only [InMem.lTrim, he, hp]
    norm_num [CacheStore.set, thirtyDaysMs]
  · intro h
    unfold jsSlice jsSliceIdx
    rcases h with h | h
    · subst h
      simp
    · by_cases hs : start < 0
      · rw [if_pos hs]
        have hz : ((l.length : Int) + start).toNat = 0 := by omega
        rw [hz]
        simp
      · have hlen : l.length = 0 := by omega
        have hl : l = [] := List.eq_nil_of_length_eq_zero hlen
        subst hl
        simp
  · intro hne hslice
    have hpos : 0 < l.length := List.length_pos.mpr hne
    have hlen := congrArg List.length hslice
    rw [jsSlice, List.length_drop] at hlen
    unfold jsSliceIdx at hlen
    by_cases hs : start < 0
    · rw [if_pos hs] at hlen
      right
      omega
    · rw [if_neg hs] at hlen
      left
      omega

/-- Witness for claim C8 at a concrete input (`start = -5` on a two-element
list: the whole list survives). -/
theorem claim_C8_witness :
    (InMem.lTrim 7 (CacheStore.empty.set "k" ⟨"[\"a\",\"b\"]", 99⟩) "k" (-5) (-1)) "k"
      = some ⟨Json.stringify (.arr (jsSlice [Json.str "a", Json.str "b"] (-5))),
          7 + thirtyDaysMs⟩ ∧
    jsSlice [Json.str "a", Json.str "b"] (-5) = [Json.str "a", Json.str "b"] := by
  have h := claim_C8 7 (CacheStore.empty.set "k" ⟨"[\"a\",\"b\"]", 99⟩) "k" (-5)
    ⟨"[\"a\",\"b\"]", 99⟩ [Json.str "a", Json.str "b"] (by decide) (by decide)
  exact ⟨h.1, h.2.1 (Or.inr (by decide))⟩

/-- Claim C10: `rPush` parses its `value` argument outside any guard, so it
throws exactly when `value` is not valid JSON; for valid `value` it never
throws, and an absent, unparsable or non-array stored entry is treated as
the empty list before the append. -/
theorem claim_C10 (now : Int) (s : CacheStore) (k v : String) :
    (Json.parse v = none → InMem.rPush now s k v = none) ∧
    (∀ j, Json.parse v = some j → InMem.rPush now s k v ≠ none) ∧
    (∀ j, Json.parse v = some j →
      (s k = none ∨ ∃ e, s k = some e ∧ ∀ l, Json.parse e.value ≠ some (.arr l)) →
      InMem.rPush now s k v
        = some (s.set k ⟨Json.stringify (.arr [j]), now + 30 * 24 * 60 * 60 * 1000⟩)) := by
  refine ⟨?_, ?_, ?_⟩
  · intro h
    unfold InMem.rPush
    rw [h]
  · intro j h
    unfold InMem.rPush
    rw [h]
    simp
  · intro j hv hstored
    rcases hstored with h | ⟨e, he, hne⟩
    · simp [InMem.rPush, hv, h]
    · rcases hpe : Json.parse e.value with _ | j2
      · simp [InMem.rPush, hv, he, hpe]
      · cases j2
        case arr l => exact absurd hpe (hne l)
        all_goals simp [InMem.rPush, hv, he, hpe]

/-- Witness for claim C10 at concrete inputs: `rPush` of a non-JSON value
throws; `rPush` of `"[]"` onto an absent key stores the one-element list. -/
theorem claim_C10_witness :
    InMem.rPush 0 CacheStore.empty "k" "not json" = none ∧
    InMem.rPush 0 CacheStore.empty "k" "[]"
      = some (CacheStore.empty.set "k"
          ⟨Json.stringify (.arr [.arr []]), 0 + 30 * 24 * 60 * 60 * 1000⟩) :=
  ⟨(claim_C10 0 CacheStore.empty "k" "not json").1 (by decide),
   (claim_C10 0 CacheStore.empty "k" "[]").2.2 (.arr []) (by decide) (Or.inl rfl)⟩

end FXV

namespace FXV

/-! ## Round trip: JSON.parse recovers JSON.stringify output

`rPush` and `lTrim` re-parse on every call what they previously serialized;
the claims about their iterated behavior rest on the round-trip property
proved in this section. -/

/-- A list is a (Boolean) prefix of itself extended by anything. -/
theorem isPrefixOf_append_self (p X : List Char) : p.isPrefixOf (p ++ X) = true := by
  induction p with
  | nil => simp [List.isPrefixOf]
  | cons a as ih => simp [List.isPrefixOf, ih]

/-- Hex digits emitted by the escaper read back as their value. -/
theorem hexVal_hexDigit : ∀ n, n < 16 → hexVal (hexDigit n) = some n := by decide

/-- The escaped body of a string parses back to exactly that string. -/
theorem parseStringBody_roundtrip : ∀ (s r : List Char),
    parseStringBody (escapeString s ++ '"' :: r) = some (s, r) := by
  intro s
  induction s with
  | nil =>
    intro r
    show parseStringBody (escapeString [] ++ '"' :: r) = some ([], r)
    unfold parseStringBody
    simp [escapeString]
  | cons c cs ih =>
    intro r
    have hflat : escapeString (c :: cs) = escapeChar c ++ escapeString cs := by
      simp [escapeString]
    rw [hflat, List.append_assoc]
    by_cases h1 : c = '"'
    · subst h1; simp [escapeChar]; unfold parseStringBody; simp [consFst, ih]
    by_cases h2 : c = '\\'
    · subst h2; simp [escapeChar]; unfold parseStringBody; simp [consFst, ih]
    by_cases h3 : c = Char.ofNat 8
    · subst h3; simp [escapeChar]; unfold parseStringBody; simp [consFst, ih]
    by_cases h4 : c = Char.ofNat 9
    · subst h4; simp [escapeChar]; unfold parseStringBody; simp [consFst, ih]
    by_cases h5 : c = '\n'
    · subst h5; simp [escapeChar]; unfold parseStringBody; simp [consFst, ih]
    by_cases h6 : c = Char.ofNat 12
    · subst h6; simp [escapeChar]; unfold parseStringBody; simp [consFst, ih]
    by_cases h7 : c = '\r'
    · subst h7; simp [escapeChar]; unfold parseStringBody; simp [consFst, ih]
    by_cases h8 : c.toNat < 32
    · rw [show escapeChar c
          = ['\\', 'u', '0', '0', hexDigit (c.toNat / 16), hexDigit (c.toNat % 16)] from by
        simp [escapeChar, h1, h2, h3, h4, h5, h6, h7, h8]]
      unfold parseStringBody
      simp [consFst, ih,
        (by decide : hexVal '0' = some 0),
        hexVal_hexDigit _ (by omega : c.toNat / 16 < 16),
        hexVal_hexDigit _ (by omega : c.toNat % 16 < 16)]
      rw [show 16 * (c.toNat / 16) + c.toNat % 16 = c.toNat from by omega,
        Char.ofNat_toNat]
    · rw [show escapeChar c = [c] from by
        simp [escapeChar, h1, h2, h3, h4, h5, h6, h7, h8]]
      unfold parseStringBody
      simp [h1, h2, h8, consFst, ih]

end FXV

namespace FXV

/-- Chars that could extend a preceding number token. -/
def numCont (c : Char) : Bool :=
  isDigit c || c = '.' || c = 'e' || c = 'E' || c = '+' || c = '-'

/-- The input cannot extend a preceding number token (empty, or starting
with a non-extending char — in the round trip always a delimiter or the
end). -/
def numDelim : List Char → Prop
  | [] => True
  | c :: _ => numCont c = false

/-- Splitting behavior of `takeDigits`. -/
theorem takeDigits_eq : ∀ (s d r : List Char), takeDigits s = (d, r) →
    s = d ++ r ∧ d.all isDigit = true ∧ (∀ c t, r = c :: t → isDigit c = false) := by
  intro s
  induction s with
  | nil =>
    intro d r h
    simp [takeDigits] at h
    obtain ⟨h1, h2⟩ := h
    subst h1
    subst h2
    simp
  | cons a rest ih =>
    intro d r h
    by_cases ha : isDigit a
    · rcases hrest : takeDigits rest with ⟨d2, r2⟩
      have h2 : (a :: d2, r2) = (d, r) := by
        simpa [takeDigits, ha, hrest] using h
      obtain ⟨e1, e2, e3⟩ := ih d2 r2 hrest
      cases h2
      refine ⟨by simp [e1], by simp [ha, e2], e3⟩
    · have h2 : (([] : List Char), a :: rest) = (d, r) := by
        simpa [takeDigits, ha] using h
      cases h2
      exact ⟨rfl, rfl, by intro c t hct; cases hct; exact eq_false_of_ne_true ha⟩

/-- `takeDigits` consumes exactly a given all-digit block when the suffix
does not start with a digit. -/
theorem takeDigits_append : ∀ (d r : List Char), d.all isDigit = true →
    (∀ c t, r = c :: t → isDigit c = false) → takeDigits (d ++ r) = (d, r) := by
  intro d
  induction d with
  | nil =>
    intro r _ hr
    cases r with
    | nil => rfl
    | cons c t => simp [takeDigits, hr c t rfl]
  | cons a d2 ih =>
    intro r hall hr
    have ha : isDigit a = true := by simp at hall; exact hall.1
    have hd2 : d2.all isDigit = true := by simp at hall; simpa using hall.2
    simp [takeDigits, ha, ih r hd2 hr]

/-- Splitting behavior of `parseIntPart`. -/
theorem parseIntPart_eq : ∀ (s ip r : List Char), parseIntPart s = some (ip, r) →
    s = ip ++ r ∧
    (ip = ['0'] ∨ ∃ c t, ip = c :: t ∧ isDigit c = true ∧ c ≠ '0' ∧
      t.all isDigit = true ∧ (∀ c2 t2, r = c2 :: t2 → isDigit c2 = false)) := by
  intro s ip r h
  cases s with
  | nil => simp [parseIntPart] at h
  | cons c rest =>
    by_cases hc : c = '0'
    · subst hc
      have h2 : (['0'], rest) = (ip, r) := by simpa [parseIntPart] using h
      cases h2
      exact ⟨rfl, Or.inl rfl⟩
    · by_cases hd : isDigit c
      · rcases hrest : takeDigits rest with ⟨d2, r2⟩
        have h2 : (c :: d2, r2) = (ip, r) := by
          simpa [parseIntPart, hc, hd, hrest] using h
        obtain ⟨e1, e2, e3⟩ := takeDigits_eq rest d2 r2 hrest
        cases h2
        exact ⟨by simp [e1], Or.inr ⟨c, d2, rfl, hd, hc, e2, e3⟩⟩
      · simp [parseIntPart, hc, hd] at h

/-- `parseIntPart` consumes exactly its previous token in front of a
non-digit suffix. -/
theorem parseIntPart_append (s ip r X : List Char)
    (h : parseIntPart s = some (ip, r))
    (hX : ∀ c t, X = c :: t → isDigit c = false) :
    parseIntPart (ip ++ X) = some (ip, X) := by
  rcases (parseIntPart_eq s ip r h).2 with h0 | ⟨c, t, hip, hd, hc0, hall, _⟩
  · subst h0
    simp [parseIntPart]
  · subst hip
    simp [parseIntPart, hc0, hd, takeDigits_append t X hall hX]

/-- Splitting behavior of `parseFrac`. -/
theorem parseFrac_eq : ∀ (s f r : List Char), parseFrac s = (f, r) →
    s = f ++ r ∧ (f = [] ∨ ∃ d, f = '.' :: d ∧ d ≠ [] ∧ d.all isDigit = true ∧
      (∀ c t, r = c :: t → isDigit c = false)) := by
  intro s f r h
  cases s with
  | nil =>
    have h2 : (([] : List Char), ([] : List Char)) = (f, r) := by
      simpa [parseFrac] using h
    cases h2
    exact ⟨rfl, Or.inl rfl⟩
  | cons c rest =>
    by_cases hc : c = '.'
    · subst hc
      rcases hrest : takeDigits rest with ⟨d2, r2⟩
      obtain ⟨e1, e2, e3⟩ := takeDigits_eq rest d2 r2 hrest
      by_cases hd : d2 = []
      · subst hd
        have h2 : (([] : List Char), '.' :: rest) = (f, r) := by
          simpa [parseFrac, hrest] using h
        cases h2
        exact ⟨rfl, Or.inl rfl⟩
      · have h2 : ('.' :: d2, r2) = (f, r) := by
          simpa [parseFrac, hrest, hd] using h
        cases h2
        exact ⟨by simp [e1], Or.inr ⟨d2, rfl, hd, e2, e3⟩⟩
    · have h2 : (([] : List Char), c :: rest) = (f, r) := by
        simpa [parseFrac, hc] using h
      cases h2
      exact ⟨rfl, Or.inl rfl⟩

/-- `parseFrac` consumes nothing when the input does not start with a dot. -/
theorem parseFrac_nil (X : List Char) (hX : ∀ c t, X = c :: t → c ≠ '.') :
    parseFrac X = ([], X) := by
  cases X with
  | nil => rfl
  | cons c t => simp [parseFrac, hX c t rfl]

/-- `parseFrac` consumes exactly its previous fraction in front of a
non-digit suffix. -/
theorem parseFrac_append (d X : List Char) (hd : d ≠ []) (hall : d.all isDigit = true)
    (hX : ∀ c t, X = c :: t → isDigit c = false) :
    parseFrac ('.' :: d ++ X) = ('.' :: d, X) := by
  simp [parseFrac, takeDigits_append d X hall hX, hd]

/-- Splitting behavior of `parseExp`. -/
theorem parseExp_eq : ∀ (s ex r : List Char), parseExp s = (ex, r) →
    s = ex ++ r ∧ (ex = [] ∨ ∃ e0 d, (e0 = 'e' ∨ e0 = 'E') ∧ d ≠ [] ∧
      d.all isDigit = true ∧
      (ex = e0 :: d ∨ ∃ sg, (sg = '+' ∨ sg = '-') ∧ ex = e0 :: sg :: d) ∧
      (∀ c t, r = c :: t → isDigit c = false)) := by
  intro s ex r h
  cases s with
  | nil =>
    have h2 : (([] : List Char), ([] : List Char)) = (ex, r) := by
      simpa [parseExp] using h
    cases h2
    exact ⟨rfl, Or.inl rfl⟩
  | cons c rest =>
    by_cases hc : c = 'e' ∨ c = 'E'
    · cases rest with
      | nil =>
        have h2 : (([] : List Char), [c]) = (ex, r) := by
          simpa [parseExp, hc] using h
        cases h2
        exact ⟨rfl, Or.inl rfl⟩
      | cons s0 rest2 =>
        by_cases hs : s0 = '+' ∨ s0 = '-'
        · rcases hrest : takeDigits rest2 with ⟨d2, r2⟩
          obtain ⟨e1, e2, e3⟩ := takeDigits_eq rest2 d2 r2 hrest
          by_cases hd : d2 = []
          · subst hd
            have h2 : (([] : List Char), c :: s0 :: rest2) = (ex, r) := by
              simpa [parseExp, hc, hs, hrest] using h
            cases h2
            exact ⟨rfl, Or.inl rfl⟩
          · have h2 : (c :: s0 :: d2, r2) = (ex, r) := by
              simpa [parseExp, hc, hs, hrest, hd] using h
            cases h2
            exact ⟨by simp [e1], Or.inr ⟨c, d2, hc, hd, e2,
              Or.inr ⟨s0, hs, rfl⟩, e3⟩⟩
        · rcases hrest : takeDigits (s0 :: rest2) with ⟨d2, r2⟩
          obtain ⟨e1, e2, e3⟩ := takeDigits_eq (s0 :: rest2) d2 r2 hrest
          by_cases hd : d2 = []
          · subst hd
            have h2 : (([] : List Char), c :: s0 :: rest2) = (ex, r) := by
              simpa [parseExp, hc, hs, hrest] using h
            cases h2
            exact ⟨rfl, Or.inl rfl⟩
          · have h2 : (c :: d2, r2) = (ex, r) := by
              simpa [parseExp, hc, hs, hrest, hd] using h
            cases h2
            exact ⟨by simp [e1], Or.inr ⟨c, d2, hc, hd, e2, Or.inl rfl, e3⟩⟩
    · have h2 : (([] : List Char), c :: rest) = (ex, r) := by
        simpa [parseExp, hc] using h
      cases h2
      exact ⟨rfl, Or.inl rfl⟩

/-- `parseExp` consumes nothing when the input does not start with an
exponent marker. -/
theorem parseExp_nil (X : List Char) (hX : ∀ c t, X = c :: t → c ≠ 'e' ∧ c ≠ 'E') :
    parseExp X = ([], X) := by
  cases X with
  | nil => rfl
  | cons c t =>
    have := hX c t rfl
    simp [parseExp, this.1, this.2]

/-- `parseExp` consumes exactly its previous exponent in front of a
non-digit suffix. -/
theorem parseExp_append (e0 : Char) (d X : List Char) (ex : List Char)
    (he : e0 = 'e' ∨ e0 = 'E') (hd : d ≠ []) (hall : d.all isDigit = true)
    (hshape : ex = e0 :: d ∨ ∃ sg, (sg = '+' ∨ sg = '-') ∧ ex = e0 :: sg :: d)
    (hX : ∀ c t, X = c :: t → isDigit c = false) :
    parseExp (ex ++ X) = (ex, X) := by
  rcases hshape with h | ⟨sg, hsg, h⟩
  · subst h
    cases d with
    | nil => exact absurd rfl hd
    | cons c0 t0 =>
      have hc0 : isDigit c0 = true := by simp at hall; exact hall.1
      have hns : ¬ (c0 = '+' ∨ c0 = '-') := by
        rintro (h | h) <;> (subst h; simp [isDigit] at hc0)
      have htd := takeDigits_append (c0 :: t0) X hall hX
      rw [List.cons_append] at htd
      simp [parseExp, he, hns, htd, hd]
  · subst h
    simp [parseExp, he, hsg, takeDigits_append d X hall hX, hd]

end FXV

namespace FXV

/-- Extension behavior of the three number stages together: the previously
parsed parts re-parse unchanged in front of a non-extending input. -/
theorem numberParts_append (s ip r1 f r2 ex X : List Char)
    (hip : parseIntPart s = some (ip, r1))
    (hfr : parseFrac r1 = (f, r2))
    (hex : parseExp r2 = (ex, []))
    (hXd : ∀ c t, X = c :: t → isDigit c = false)
    (hXdot : ∀ c t, X = c :: t → c ≠ '.')
    (hXe : ∀ c t, X = c :: t → c ≠ 'e' ∧ c ≠ 'E') :
    parseIntPart (ip ++ (f ++ (ex ++ X))) = some (ip, f ++ (ex ++ X)) ∧
    parseFrac (f ++ (ex ++ X)) = (f, ex ++ X) ∧
    parseExp (ex ++ X) = (ex, X) := by
  obtain ⟨hr1eq, hfshape⟩ := parseFrac_eq r1 f r2 hfr
  obtain ⟨hr2eq, hexshape⟩ := parseExp_eq r2 ex [] hex
  rw [List.append_nil] at hr2eq
  have hF1 : ∀ c2 t2, ex ++ X = c2 :: t2 → isDigit c2 = false := by
    rcases hexshape with hx | ⟨e0, d, he0, hdne, hdall, hsh, _⟩
    · subst hx
      simpa using hXd
    · rcases hsh with hsh | ⟨sg, hsg, hsh⟩ <;>
        (subst hsh
         intro c2 t2 hct
         rw [List.cons_append] at hct
         cases hct
         rcases he0 with h9 | h9 <;> (subst h9; decide))
  have hF2 : ∀ c2 t2, ex ++ X = c2 :: t2 → c2 ≠ '.' := by
    rcases hexshape with hx | ⟨e0, d, he0, hdne, hdall, hsh, _⟩
    · subst hx
      simpa using hXdot
    · rcases hsh with hsh | ⟨sg, hsg, hsh⟩ <;>
        (subst hsh
         intro c2 t2 hct
         rw [List.cons_append] at hct
         cases hct
         rcases he0 with h9 | h9 <;> (subst h9; decide))
  have hF3 : ∀ c2 t2, f ++ (ex ++ X) = c2 :: t2 → isDigit c2 = false := by
    rcases hfshape with hf | ⟨d, hf, hdne, hdall, _⟩
    · subst hf
      simpa using hF1
    · subst hf
      intro c2 t2 hct
      rw [List.cons_append] at hct
      cases hct
      decide
  have hexX : parseExp (ex ++ X) = (ex, X) := by
    rcases hexshape with hx | ⟨e0, d, he0, hdne, hdall, hsh, _⟩
    · subst hx
      exact parseExp_nil X hXe
    · exact parseExp_append e0 d X ex he0 hdne hdall hsh hXd
  have hfrX : parseFrac (f ++ (ex ++ X)) = (f, ex ++ X) := by
    rcases hfshape with hf | ⟨d, hf, hdne, hdall, _⟩
    · subst hf
      simp only [List.nil_append]
      exact parseFrac_nil _ hF2
    · subst hf
      rw [List.cons_append]
      have := parseFrac_append d (ex ++ X) hdne hdall hF1
      rw [List.cons_append] at this
      exact this
  refine ⟨?_, hfrX, hexX⟩
  exact parseIntPart_append s ip r1 (f ++ (ex ++ X)) hip hF3

/-- A complete number token followed by non-extending input parses back as
exactly that token. -/
theorem parseNumberToken_append (tok X : List Char)
    (h : parseNumberToken tok = some (tok, []))
    (hX : numDelim X) :
    parseNumberToken (tok ++ X) = some (tok, X) := by
  have hXd : ∀ c t, X = c :: t → isDigit c = false := by
    intro c t hct
    subst hct
    have hnc : numCont c = false := hX
    cases h9 : isDigit c
    · rfl
    · unfold numCont at hnc
      rw [h9] at hnc
      simp at hnc
  have hXdot : ∀ c t, X = c :: t → c ≠ '.' := by
    intro c t hct
    subst hct
    have hnc : numCont c = false := hX
    intro h9
    subst h9
    exact absurd hnc (by decide)
  have hXe : ∀ c t, X = c :: t → c ≠ 'e' ∧ c ≠ 'E' := by
    intro c t hct
    subst hct
    have hnc : numCont c = false := hX
    constructor
    · intro h9
      subst h9
      exact absurd hnc (by decide)
    · intro h9
      subst h9
      exact absurd hnc (by decide)
  cases tok with
  | nil => simp [parseNumberToken] at h
  | cons c rest =>
    by_cases hc : c = '-'
    · subst hc
      rcases hip : parseIntPart rest with _ | ⟨ip, r1⟩
      · simp [parseNumberToken, hip] at h
      · rcases hfr : parseFrac r1 with ⟨f, r2⟩
        rcases hex : parseExp r2 with ⟨ex, r3⟩
        have hh := h
        unfold parseNumberToken at hh
        simp [hip, hfr, hex] at hh
        obtain ⟨htok, hr3⟩ := hh
        subst hr3
        have hcore := numberParts_append rest ip r1 f r2 ex X hip hfr hex hXd hXdot hXe
        have htok2 : ip ++ f ++ ex = rest := by
          have := htok
          simpa using this
        subst htok2
        show parseNumberToken ('-' :: (ip ++ f ++ ex ++ X)) = some ('-' :: (ip ++ f ++ ex), X)
        have hassoc : ip ++ f ++ ex ++ X = ip ++ (f ++ (ex ++ X)) := by
          simp [List.append_assoc]
        rw [hassoc]
        simp [parseNumberToken, hcore.1, hcore.2.1, hcore.2.2, List.append_assoc]
    · rcases hip : parseIntPart (c :: rest) with _ | ⟨ip, r1⟩
      · simp [parseNumberToken, hc, hip] at h
      · rcases hfr : parseFrac r1 with ⟨f, r2⟩
        rcases hex : parseExp r2 with ⟨ex, r3⟩
        have hh := h
        unfold parseNumberToken at hh
        simp [hc, hip, hfr, hex] at hh
        obtain ⟨htok, hr3⟩ := hh
        subst hr3
        have hcore := numberParts_append (c :: rest) ip r1 f r2 ex X hip hfr hex hXd hXdot hXe
        have htok2 : ip ++ (f ++ ex) = c :: rest := by
          rw [← List.append_assoc]
          simpa using htok
        show parseNumberToken ((c :: rest) ++ X) = some (c :: rest, X)
        rw [List.cons_append]
        have hin : c :: (rest ++ X) = ip ++ (f ++ (ex ++ X)) := by
          rw [← List.cons_append, ← htok2]
          simp [List.append_assoc]
        simp only [parseNumberToken, if_neg hc]
        rw [hin, hcore.1]
        simp only [hcore.2.1, hcore.2.2]
        rw [← htok2]
        simp [List.append_assoc]

end FXV

namespace FXV

/-- Structure eta for strings. -/
theorem stringMkData (s : String) : String.mk s.data = s := rfl

/-- `skipWs` leaves input starting with a non-whitespace char alone. -/
theorem skipWs_cons (c : Char) (t : List Char) (h : jsonWsChar c = false) :
    skipWs (c :: t) = c :: t := by
  simp [skipWs, h]

/-- A successful number-token parse yields a token starting with a minus or
a digit. -/
theorem parseNumberToken_head (s t r : List Char)
    (h : parseNumberToken s = some (t, r)) :
    ∃ c t2, t = c :: t2 ∧ (c = '-' ∨ isDigit c = true) := by
  cases s with
  | nil => simp [parseNumberToken] at h
  | cons c rest =>
    by_cases hc : c = '-'
    · subst hc
      rcases hip : parseIntPart rest with _ | ⟨ip, r1⟩
      · simp [parseNumberToken, hip] at h
      · have hh := h
        unfold parseNumberToken at hh
        simp [hip] at hh
        exact ⟨'-', ip ++ (parseFrac r1).1 ++ (parseExp (parseFrac r1).2).1,
          by rw [← hh.1]; simp [List.append_assoc], Or.inl rfl⟩
    · rcases hip : parseIntPart (c :: rest) with _ | ⟨ip, r1⟩
      · simp [parseNumberToken, hc, hip] at h
      · have hh := h
        unfold parseNumberToken at hh
        simp [hc, hip] at hh
        rcases (parseIntPart_eq (c :: rest) ip r1 hip).2 with h0 | ⟨c0, t0, hipeq, hd0, _⟩
        · refine ⟨'0', (parseFrac r1).1 ++ (parseExp (parseFrac r1).2).1, ?_, Or.inr (by decide)⟩
          rw [← hh.1, h0]
          simp [List.append_assoc]
        · refine ⟨c0, t0 ++ ((parseFrac r1).1 ++ (parseExp (parseFrac r1).2).1), ?_, Or.inr hd0⟩
          rw [← hh.1, hipeq]
          simp [List.append_assoc]

/-- Serialized well-formed values start with a character that is not JSON
whitespace and not a closing bracket. -/
theorem stringify_head (j : Json) (h : jsonWF j = true) :
    ∃ c t, stringifyVal j = c :: t ∧ jsonWsChar c = false ∧ c ≠ ']' := by
  cases j with
  | null => exact ⟨'n', "ull".data, rfl, by decide, by decide⟩
  | bool b =>
    cases b
    · exact ⟨'f', "alse".data, rfl, by decide, by decide⟩
    · exact ⟨'t', "rue".data, rfl, by decide, by decide⟩
  | num tok =>
    have hp : parseNumberToken tok.data = some (tok.data, []) := by
      have := h
      simp [jsonWF] at this
      exact this
    obtain ⟨c, t2, htok, hcd⟩ := parseNumberToken_head tok.data tok.data [] hp
    refine ⟨c, t2, by simp [stringifyVal, htok], ?_, ?_⟩
    · rcases hcd with h9 | h9
      · subst h9; decide
      · cases h10 : jsonWsChar c
        · rfl
        · exfalso
          unfold jsonWsChar at h10
          simp at h10
          rcases h10 with ((h11 | h11) | h11) | h11 <;> (subst h11; simp [isDigit] at h9)
    · rcases hcd with h9 | h9
      · subst h9; decide
      · intro h11
        subst h11
        simp [isDigit] at h9
  | str s => exact ⟨'"', escapeString s.data ++ ['"'], rfl, by decide, by decide⟩
  | arr l => exact ⟨'[', stringifyArr l ++ [']'], rfl, by decide, by decide⟩
  | obj fl => exact ⟨braceOpen, stringifyObj fl ++ [braceClose], rfl, by decide, by decide⟩

/-- Serialized values are nonempty. -/
theorem stringify_length_pos (j : Json) (h : jsonWF j = true) :
    1 ≤ (stringifyVal j).length := by
  obtain ⟨c, t, he, _⟩ := stringify_head j h
  simp [he]

/-- `skipWs` leaves a serialized well-formed value (plus anything) alone. -/
theorem skipWs_stringify (j : Json) (h : jsonWF j = true) (R : List Char) :
    skipWs (stringifyVal j ++ R) = stringifyVal j ++ R := by
  obtain ⟨c, t, he, hws, _⟩ := stringify_head j h
  rw [he, List.cons_append, skipWs_cons c (t ++ R) hws]

end FXV

namespace FXV

/-- Nonempty serialized element lists are nonempty strings. -/
theorem stringifyArr_length_pos (x : Json) (xs : List Json) (h : jsonWF x = true) :
    1 ≤ (stringifyArr (x :: xs)).length := by
  cases xs with
  | nil =>
    have := stringify_length_pos x h
    simpa [stringifyArr] using this
  | cons y ys =>
    have := stringify_length_pos x h
    simp [stringifyArr]
    omega

/-- Nonempty serialized member lists are nonempty strings. -/
theorem stringifyObj_length_pos (k : String) (v : Json) (xs : List (String × Json)) :
    2 ≤ (stringifyObj ((k, v) :: xs)).length := by
  cases xs with
  | nil =>
    simp [stringifyObj, quoteString]
    omega
  | cons y ys =>
    simp [stringifyObj, quoteString]
    omega

/-- Main induction: a serialized well-formed value, element list or member
list parses back to exactly itself in front of any non-extending input,
given fuel beyond the serialized length. -/
theorem parse_stringify_aux : ∀ fuel : Nat,
    (∀ j rest, jsonWF j = true → numDelim rest →
      (stringifyVal j).length + 1 ≤ fuel →
      parseValue fuel (stringifyVal j ++ rest) = some (j, rest)) ∧
    (∀ l rest, l ≠ [] → jsonListWF l = true →
      (stringifyArr l).length + 2 ≤ fuel →
      parseElements fuel (stringifyArr l ++ ']' :: rest) = some (l, rest)) ∧
    (∀ fl rest, fl ≠ [] → jsonFieldsWF fl = true →
      (stringifyObj fl).length + 2 ≤ fuel →
      parseMembers fuel (stringifyObj fl ++ braceClose :: rest) = some (fl, rest)) := by
  intro fuel
  induction fuel with
  | zero =>
    refine ⟨?_, ?_, ?_⟩
    · intro j rest _ _ hlen
      omega
    · intro l rest _ _ hlen
      omega
    · intro fl rest _ _ hlen
      omega
  | succ fuel ih =>
    obtain ⟨ihV, ihE, ihM⟩ := ih
    refine ⟨?_, ?_, ?_⟩
    · -- values
      intro j rest hwf hdelim hlen
      cases j with
      | null =>
        rw [show stringifyVal Json.null ++ rest = 'n' :: 'u' :: 'l' :: 'l' :: rest from rfl]
        unfold parseValue
        simp [List.isPrefixOf, show "ull".data = ['u', 'l', 'l'] from rfl]
      | bool b =>
        cases b
        · rw [show stringifyVal (Json.bool false) ++ rest
              = 'f' :: 'a' :: 'l' :: 's' :: 'e' :: rest from rfl]
          unfold parseValue
          simp [List.isPrefixOf, show "alse".data = ['a', 'l', 's', 'e'] from rfl]
        · rw [show stringifyVal (Json.bool true) ++ rest
              = 't' :: 'r' :: 'u' :: 'e' :: rest from rfl]
          unfold parseValue
          simp [List.isPrefixOf, show "rue".data = ['r', 'u', 'e'] from rfl]
      | num tok =>
        have hp : parseNumberToken tok.data = some (tok.data, []) := by
          simpa [jsonWF] using hwf
        obtain ⟨c, t2, htok, hcd⟩ := parseNumberToken_head tok.data tok.data [] hp
        have hfacts : c ≠ 'n' ∧ c ≠ 't' ∧ c ≠ 'f' ∧ c ≠ '"' ∧ c ≠ '[' ∧ c ≠ braceOpen := by
          rcases hcd with h9 | h9
          · subst h9
            exact ⟨by decide, by decide, by decide, by decide, by decide, by decide⟩
          · refine ⟨?_, ?_, ?_, ?_, ?_, ?_⟩ <;> (intro hq; subst hq; exact absurd h9 (by decide))
        have happ2 : parseNumberToken (c :: (t2 ++ rest)) = some (tok.data, rest) := by
          rw [← List.cons_append, ← htok]
          exact parseNumberToken_append tok.data rest hp hdelim
        rw [show stringifyVal (Json.num tok) = tok.data from rfl, htok, List.cons_append]
        unfold parseValue
        dsimp only
        rw [if_neg hfacts.1, if_neg hfacts.2.1, if_neg hfacts.2.2.1,
          if_neg hfacts.2.2.2.1, if_neg hfacts.2.2.2.2.1, if_neg hfacts.2.2.2.2.2,
          happ2]
      | str s =>
        rw [show stringifyVal (Json.str s) ++ rest
            = '"' :: (escapeString s.data ++ '"' :: rest) from by
          simp [stringifyVal, quoteString]]
        unfold parseValue
        simp [parseStringBody_roundtrip, stringMkData]
      | arr l =>
        cases l with
        | nil =>
          rw [show stringifyVal (Json.arr []) ++ rest = '[' :: ']' :: rest from rfl]
          unfold parseValue
          simp [skipWs, jsonWsChar]
        | cons x xs =>
          have hl : jsonListWF (x :: xs) = true := by simpa [jsonWF] using hwf
          have hwx : jsonWF x = true := by
            simp [jsonListWF] at hl
            exact hl.1
          obtain ⟨c0, t0, hx0, hws0, hbr0⟩ := stringify_head x hwx
          have hT : ∃ T, stringifyArr (x :: xs) = c0 :: T := by
            cases xs with
            | nil => exact ⟨t0, hx0⟩
            | cons y ys =>
              exact ⟨t0 ++ ',' :: stringifyArr (y :: ys), by simp [stringifyArr, hx0]⟩
          obtain ⟨T, hT⟩ := hT
          have hlen2 : (stringifyArr (x :: xs)).length + 2 ≤ fuel := by
            have : (stringifyVal (Json.arr (x :: xs))).length
                = (stringifyArr (x :: xs)).length + 2 := by
              simp [stringifyVal]
            omega
          have hE := ihE (x :: xs) rest (by simp) hl hlen2
          rw [show stringifyVal (Json.arr (x :: xs)) ++ rest
              = '[' :: (stringifyArr (x :: xs) ++ ']' :: rest) from by
            simp [stringifyVal, List.append_assoc]]
          unfold parseValue
          rw [hT, List.cons_append]
          rw [hT, List.cons_append] at hE
          simp [skipWs_cons c0 (T ++ ']' :: rest) hws0, hbr0, hE]
      | obj fl =>
        cases fl with
        | nil =>
          rw [show stringifyVal (Json.obj []) ++ rest = braceOpen :: braceClose :: rest from rfl]
          unfold parseValue
          simp [skipWs, jsonWsChar, braceOpen, braceClose]
        | cons kv xs =>
          obtain ⟨k, v⟩ := kv
          have hl : jsonFieldsWF ((k, v) :: xs) = true := by simpa [jsonWF] using hwf
          have hT : ∃ T, stringifyObj ((k, v) :: xs) = '"' :: T := by
            cases xs with
            | nil =>
              exact ⟨escapeString k.data ++ '"' :: ':' :: stringifyVal v, by
                simp [stringifyObj, quoteString]⟩
            | cons y ys =>
              exact ⟨escapeString k.data ++ '"' :: ':' :: (stringifyVal v ++
                  ',' :: stringifyObj (y :: ys)), by
                simp [stringifyObj, quoteString]⟩
          obtain ⟨T, hT⟩ := hT
          have hlen2 : (stringifyObj ((k, v) :: xs)).length + 2 ≤ fuel := by
            have : (stringifyVal (Json.obj ((k, v) :: xs))).length
                = (stringifyObj ((k, v) :: xs)).length + 2 := by
              simp [stringifyVal]
            omega
          have hM := ihM ((k, v) :: xs) rest (by simp) hl hlen2
          rw [show stringifyVal (Json.obj ((k, v) :: xs)) ++ rest
              = braceOpen :: (stringifyObj ((k, v) :: xs) ++ braceClose :: rest) from by
            simp [stringifyVal, List.append_assoc]]
          unfold parseValue
          rw [hT, List.cons_append]
          rw [hT, List.cons_append] at hM
          simp [skipWs_cons '"' (T ++ braceClose :: rest) (by decide), hM,
            (by decide : ¬ (braceOpen = 'n')), (by decide : ¬ (braceOpen = 't')),
            (by decide : ¬ (braceOpen = 'f')), (by decide : ¬ (braceOpen = '"')),
            (by decide : ¬ (braceOpen = '[')), (by decide : ¬ ('"' = braceClose))]
    · -- element lists
      intro l rest hne hwfl hlen
      cases l with
      | nil => exact absurd rfl hne
      | cons x xs =>
        have hwx : jsonWF x = true := by
          simp [jsonListWF] at hwfl
          exact hwfl.1
        have hwxs : jsonListWF xs = true := by
          simp [jsonListWF] at hwfl
          exact hwfl.2
        cases xs with
        | nil =>
          have hlenx : (stringifyVal x).length + 1 ≤ fuel := by
            have h1 : (stringifyArr [x]).length = (stringifyVal x).length := by
              rw [show stringifyArr [x] = stringifyVal x from rfl]
            omega
          have hV := ihV x (']' :: rest) hwx (by show numCont ']' = false; decide) hlenx
          unfold parseElements
          rw [show stringifyArr [x] ++ ']' :: rest = stringifyVal x ++ ']' :: rest from rfl]
          rw [skipWs_stringify x hwx (']' :: rest), hV]
          simp [skipWs, jsonWsChar]
        | cons y ys =>
          have harr : stringifyArr (x :: y :: ys)
              = stringifyVal x ++ ',' :: stringifyArr (y :: ys) := rfl
          have hyslen := stringifyArr_length_pos y ys (by
            simp [jsonListWF] at hwxs
            exact hwxs.1)
          have hlenx : (stringifyVal x).length + 1 ≤ fuel := by
            have : (stringifyArr (x :: y :: ys)).length
                = (stringifyVal x).length + 1 + (stringifyArr (y :: ys)).length := by
              simp [harr]
              omega
            omega
          have hlenys : (stringifyArr (y :: ys)).length + 2 ≤ fuel := by
            have h1 : (stringifyArr (x :: y :: ys)).length
                = (stringifyVal x).length + 1 + (stringifyArr (y :: ys)).length := by
              simp [harr]
              omega
            have h2 := stringify_length_pos x hwx
            omega
          have hV := ihV x (',' :: (stringifyArr (y :: ys) ++ ']' :: rest)) hwx
            (by show numCont ',' = false; decide) hlenx
          have hE := ihE (y :: ys) rest (by simp) hwxs hlenys
          unfold parseElements
          rw [show stringifyArr (x :: y :: ys) ++ ']' :: rest
              = stringifyVal x ++ (',' :: (stringifyArr (y :: ys) ++ ']' :: rest)) from by
            rw [harr]
            simp [List.append_assoc]]
          rw [skipWs_stringify x hwx _, hV]
          simp [skipWs, jsonWsChar, hE]
    · -- member lists
      intro fl rest hne hwfl hlen
      cases fl with
      | nil => exact absurd rfl hne
      | cons kv xs =>
        obtain ⟨k, v⟩ := kv
        have hwv : jsonWF v = true := by
          simp [jsonFieldsWF] at hwfl
          exact hwfl.1
        have hwxs : jsonFieldsWF xs = true := by
          simp [jsonFieldsWF] at hwfl
          exact hwfl.2
        have hqk : (quoteString k.data).length = (escapeString k.data).length + 2 := by
          simp [quoteString]
        cases xs with
        | nil =>
          have hobj : stringifyObj [(k, v)] = quoteString k.data ++ ':' :: stringifyVal v := rfl
          have hlenv : (stringifyVal v).length + 1 ≤ fuel := by
            have : (stringifyObj [(k, v)]).length
                = (quoteString k.data).length + 1 + (stringifyVal v).length := by
              simp [hobj]
              omega
            omega
          have hV := ihV v (braceClose :: rest) hwv
            (by show numCont braceClose = false; decide) hlenv
          unfold parseMembers
          rw [show stringifyObj [(k, v)] ++ braceClose :: rest
              = '"' :: (escapeString k.data ++ '"' ::
                  (':' :: (stringifyVal v ++ braceClose :: rest))) from by
            rw [hobj]
            simp [quoteString, List.append_assoc]]
          rw [skipWs_cons '"' _ (by decide)]
          simp [parseStringBody_roundtrip, skipWs, jsonWsChar,
            skipWs_stringify v hwv, hV, stringMkData,
            (by decide : ¬ (braceClose = ' ')), (by decide : ¬ (braceClose = Char.ofNat 9)),
            (by decide : ¬ (braceClose = '\n')), (by decide : ¬ (braceClose = '\r')),
            (by decide : ¬ (braceClose = ','))]
        | cons y ys =>
          have hobj : stringifyObj ((k, v) :: y :: ys)
              = quoteString k.data ++ ':' :: stringifyVal v ++ ',' :: stringifyObj (y :: ys) := rfl
          obtain ⟨ky, vy⟩ := y
          have hyslen := stringifyObj_length_pos ky vy ys
          have hlenv : (stringifyVal v).length + 1 ≤ fuel := by
            have : (stringifyObj ((k, v) :: (ky, vy) :: ys)).length
                = (quoteString k.data).length + 1 + (stringifyVal v).length
                  + 1 + (stringifyObj ((ky, vy) :: ys)).length := by
              rw [hobj]
              simp
              omega
            omega
          have hlenys : (stringifyObj ((ky, vy) :: ys)).length + 2 ≤ fuel := by
            have h1 : (stringifyObj ((k, v) :: (ky, vy) :: ys)).length
                = (quoteString k.data).length + 1 + (stringifyVal v).length
                  + 1 + (stringifyObj ((ky, vy) :: ys)).length := by
              rw [hobj]
              simp
              omega
            have h2 := stringify_length_pos v hwv
            omega
          have hV := ihV v (',' :: (stringifyObj ((ky, vy) :: ys) ++ braceClose :: rest)) hwv
            (by show numCont ',' = false; decide) hlenv
          have hM := ihM ((ky, vy) :: ys) rest (by simp) hwxs hlenys
          unfold parseMembers
          rw [show stringifyObj ((k, v) :: (ky, vy) :: ys) ++ braceClose :: rest
              = '"' :: (escapeString k.data ++ '"' ::
                  (':' :: (stringifyVal v ++
                    (',' :: (stringifyObj ((ky, vy) :: ys) ++ braceClose :: rest))))) from by
            rw [hobj]
            simp [quoteString, List.append_assoc]]
          rw [skipWs_cons '"' _ (by decide)]
          simp [parseStringBody_roundtrip, skipWs, jsonWsChar,
            skipWs_stringify v hwv, hV, stringMkData, hM]

end FXV

namespace FXV

/-- Round trip: parsing a serialized well-formed value recovers it. -/
theorem parse_stringify (j : Json) (h : jsonWF j = true) :
    Json.parse (Json.stringify j) = some j := by
  have key := (parse_stringify_aux (2 * (stringifyVal j).length + 2)).1 j [] h
    trivial (by omega)
  rw [List.append_nil] at key
  have hsk : skipWs (stringifyVal j) = stringifyVal j := by
    have h2 := skipWs_stringify j h []
    simpa using h2
  unfold Json.parse
  rw [show (Json.stringify j).data = stringifyVal j from rfl, hsk, key]
  simp [skipWs]

/-- Well-formedness distributes over list append. -/
theorem jsonListWF_append (a b : List Json) :
    jsonListWF (a ++ b) = (jsonListWF a && jsonListWF b) := by
  induction a with
  | nil => simp [jsonListWF]
  | cons x xs ih => simp [jsonListWF, ih, Bool.and_assoc]

/-- Well-formedness is preserved by dropping a prefix. -/
theorem jsonListWF_drop (l : List Json) (n : Nat) (h : jsonListWF l = true) :
    jsonListWF (l.drop n) = true := by
  induction l generalizing n with
  | nil => simpa using h
  | cons x xs ih =>
    cases n with
    | zero => exact h
    | succ n =>
      have hx : jsonWF x = true ∧ jsonListWF xs = true := by
        simpa [jsonListWF] using h
      simpa using ih n hx.2

/-- Reading back the key just written. -/
theorem CacheStore.get_set_self (s : CacheStore) (k : String) (e : CacheEntry) :
    (s.set k e) k = some e := by
  simp [CacheStore.set]

/-- The `-100` slice keeps exactly the last (at most) 100 elements. -/
theorem jsSlice_neg100 (l : List Json) :
    jsSlice l (-100) = l.drop (l.length - 100) := by
  unfold jsSlice jsSliceIdx
  rw [if_pos (by norm_num)]
  congr 1
  omega

/-- The `0` slice keeps the whole list. -/
theorem jsSlice_zero (l : List Json) : jsSlice l 0 = l := by
  unfold jsSlice jsSliceIdx
  simp

set_option maxRecDepth 4000 in
set_option maxHeartbeats 1000000 in
/-- Trimming to the last 100 after an append commutes with having trimmed
before the append: only the last 100 of the total survive either way. -/
theorem drop_tail_append (a b : List Json) :
    ((a.drop (a.length - 100)) ++ b).drop (((a.drop (a.length - 100)) ++ b).length - 100)
      = (a ++ b).drop ((a ++ b).length - 100) := by
  rw [List.drop_append_eq_append_drop, List.drop_append_eq_append_drop, List.drop_drop]
  congr 1
  · congr 1
    simp [List.length_drop]
    omega
  · congr 1
    simp [List.length_drop]
    omega

/-- One round of the retention pipeline on a history key: `rPush(value)`
followed by `lTrim(key, -100, -1)`, exactly as `logRetentionCleanup` does
after every append (`none` when the `rPush` throws). -/
def pushAndTrim (now : Int) (k : String) (s : CacheStore) (v : String) :
    Option CacheStore :=
  match InMem.rPush now s k v with
  | none => none
  | some s2 => some (InMem.lTrim now s2 k (-100) (-1))

/-- A sequence of append-then-trim rounds. -/
def appendRun (now : Int) (k : String) : CacheStore → List String → Option CacheStore
  | s, [] => some s
  | s, v :: vs =>
    match pushAndTrim now k s v with
    | none => none
    | some s2 => appendRun now k s2 vs

/-- Invariant of the run: starting from a state whose key decodes to `arr`,
after appending the serializations of `js` (nonempty) the key holds exactly
the last (at most) 100 of `arr ++ js`, freshly re-serialized. -/
theorem appendRun_inv (now : Int) (k : String) :
    ∀ (js arr : List Json) (s : CacheStore),
      js ≠ [] → jsonListWF js = true → jsonListWF arr = true →
      ((s k = none ∧ arr = []) ∨ ∃ e, s k = some ⟨Json.stringify (.arr arr), e⟩) →
      ∃ s1, appendRun now k s (js.map Json.stringify) = some s1 ∧
        s1 k = some ⟨Json.stringify
            (.arr ((arr ++ js).drop ((arr ++ js).length - 100))),
          now + 30 * 24 * 60 * 60 * 1000⟩ := by
  intro js
  induction js with
  | nil => intro arr s hne; exact absurd rfl hne
  | cons j vs ih =>
    intro arr s _ hwf hwfa hdec
    have hwj : jsonWF j = true := by
      simp [jsonListWF] at hwf
      exact hwf.1
    have hwvs : jsonListWF vs = true := by
      simp [jsonListWF] at hwf
      exact hwf.2
    have hpj : Json.parse (Json.stringify j) = some j := parse_stringify j hwj
    have hwf1 : jsonListWF (arr ++ [j]) = true := by
      rw [jsonListWF_append]
      simp [jsonListWF, hwfa, hwj]
    have hpush : InMem.rPush now s k (Json.stringify j)
        = some (s.set k ⟨Json.stringify (.arr (arr ++ [j])),
            now + 30 * 24 * 60 * 60 * 1000⟩) := by
      rcases hdec with ⟨hk, harr⟩ | ⟨e, hk⟩
      · subst harr
        simp [InMem.rPush, hk, hpj]
      · have hpa : Json.parse (Json.stringify (Json.arr arr)) = some (Json.arr arr) :=
          parse_stringify (Json.arr arr) (by simpa [jsonWF] using hwfa)
        simp [InMem.rPush, hk, hpa, hpj]
    have htrim : InMem.lTrim now
        (s.set k ⟨Json.stringify (.arr (arr ++ [j])), now + 30 * 24 * 60 * 60 * 1000⟩)
        k (-100) (-1)
        = (s.set k ⟨Json.stringify (.arr (arr ++ [j])), now + 30 * 24 * 60 * 60 * 1000⟩).set k
            ⟨Json.stringify (.arr ((arr ++ [j]).drop ((arr ++ [j]).length - 100))),
              now + 30 * 24 * 60 * 60 * 1000⟩ := by
      have hpa1 : Json.parse (Json.stringify (Json.arr (arr ++ [j])))
          = some (Json.arr (arr ++ [j])) :=
        parse_stringify (Json.arr (arr ++ [j])) (by simpa [jsonWF] using hwf1)
      simp [InMem.lTrim, CacheStore.get_set_self, hpa1, jsSlice_neg100]
    have hround : pushAndTrim now k s (Json.stringify j)
        = some ((s.set k ⟨Json.stringify (.arr (arr ++ [j])),
            now + 30 * 24 * 60 * 60 * 1000⟩).set k
            ⟨Json.stringify (.arr ((arr ++ [j]).drop ((arr ++ [j]).length - 100))),
              now + 30 * 24 * 60 * 60 * 1000⟩) := by
      unfold pushAndTrim
      rw [hpush]
      dsimp only
      rw [htrim]
    cases vs with
    | nil =>
      refine ⟨(s.set k ⟨Json.stringify (.arr (arr ++ [j])),
          now + 30 * 24 * 60 * 60 * 1000⟩).set k
          ⟨Json.stringify (.arr ((arr ++ [j]).drop ((arr ++ [j]).length - 100))),
            now + 30 * 24 * 60 * 60 * 1000⟩, ?_, ?_⟩
      · dsimp only [List.map]
        unfold appendRun
        rw [hround]
        rfl
      · exact CacheStore.get_set_self _ _ _
    | cons v2 vs2 =>
      have harr2 : jsonListWF ((arr ++ [j]).drop ((arr ++ [j]).length - 100)) = true :=
        jsonListWF_drop _ _ hwf1
      obtain ⟨s1, hrun, hfinal⟩ := ih ((arr ++ [j]).drop ((arr ++ [j]).length - 100))
        ((s.set k ⟨Json.stringify (.arr (arr ++ [j])), now + 30 * 24 * 60 * 60 * 1000⟩).set k
            ⟨Json.stringify (.arr ((arr ++ [j]).drop ((arr ++ [j]).length - 100))),
              now + 30 * 24 * 60 * 60 * 1000⟩)
        (by simp) hwvs harr2
        (Or.inr ⟨now + 30 * 24 * 60 * 60 * 1000, CacheStore.get_set_self _ _ _⟩)
      refine ⟨s1, ?_, ?_⟩
      · rw [show (j :: v2 :: vs2).map Json.stringify
            = Json.stringify j :: (v2 :: vs2).map Json.stringify from rfl]
        unfold appendRun
        rw [hround]
        exact hrun
      · rw [hfinal]
        rw [drop_tail_append (arr ++ [j]) (v2 :: vs2)]
        rw [show (arr ++ [j]) ++ v2 :: vs2 = arr ++ j :: v2 :: vs2 from by simp]

/-- Claim C4: starting with the history key absent, after N > 100 rounds of
`rPush` (each appending one serialized value) each followed by
`lTrim(key, -100, -1)`, `lRange(key, 0, -1)` returns exactly the 100
most-recently-appended values, in append order. -/
theorem claim_C4 (now : Int) (k : String) (s0 : CacheStore) (js : List Json)
    (h0 : s0 k = none) (hwf : jsonListWF js = true) (hN : 100 < js.length) :
    ∃ s1, appendRun now k s0 (js.map Json.stringify) = some s1 ∧
      InMem.lRange s1 k 0 (-1) = (js.drop (js.length - 100)).map Json.stringify ∧
      ((js.drop (js.length - 100)).map Json.stringify).length = 100 := by
  have hne : js ≠ [] := by
    intro h
    subst h
    simp at hN
  obtain ⟨s1, hrun, hfinal⟩ := appendRun_inv now k js [] s0 hne hwf (by simp [jsonListWF])
    (Or.inl ⟨h0, rfl⟩)
  rw [List.nil_append] at hfinal
  refine ⟨s1, hrun, ?_, ?_⟩
  · have hwfd : jsonListWF (js.drop (js.length - 100)) = true := jsonListWF_drop js _ hwf
    have hpd : Json.parse (Json.stringify (Json.arr (js.drop (js.length - 100))))
        = some (Json.arr (js.drop (js.length - 100))) :=
      parse_stringify _ (by simpa [jsonWF] using hwfd)
    simp [InMem.lRange, hfinal, hpd, jsSlice_zero]
  · simp [List.length_drop]
    omega

/-- Witness for claim C4 at a concrete input: 101 appends of `null`. -/
theorem claim_C4_witness :
    ∃ s1, appendRun 0 "notifications:cleanup:history" CacheStore.empty
        ((List.replicate 101 Json.null).map Json.stringify) = some s1 ∧
      InMem.lRange s1 "notifications:cleanup:history" 0 (-1)
        = ((List.replicate 101 Json.null).drop ((List.replicate 101 Json.null).length - 100)).map
            Json.stringify ∧
      (((List.replicate 101 Json.null).drop
          ((List.replicate 101 Json.null).length - 100)).map Json.stringify).length = 100 :=
  claim_C4 0 "notifications:cleanup:history" CacheStore.empty (List.replicate 101 Json.null)
    rfl (by decide) (by decide)

end FXV

namespace FXV

/-- A true `isPrefixOf` means the pattern is literally the front of the text. -/
theorem isPrefixOf_take (P : List Char) :
    ∀ x : List Char, P.isPrefixOf x = true → x.take P.length = P := by
  intro x h
  simp at h
  exact (List.prefix_iff_eq_take.mp h).symm

/-- Converse: if the pattern is the front of the text, `isPrefixOf` holds. -/
theorem isPrefixOf_of_take (P : List Char) :
    ∀ x : List Char, x.take P.length = P → P.isPrefixOf x = true := by
  intro x h
  simp
  exact List.prefix_iff_eq_take.mpr h.symm

/-- `</item>` has no nonempty proper border: the close tag cannot straddle the
boundary between an item body and the closing tag that follows it. -/
theorem itemClose_no_straddle (x y : List Char)
    (hnp : ¬ itemClose.isPrefixOf x = true) (hx : x ≠ []) :
    ¬ itemClose.isPrefixOf (x ++ (itemClose ++ y)) = true := by
  intro h
  have htake := isPrefixOf_take itemClose _ h
  rw [List.take_append_eq_append_take] at htake
  by_cases hb : itemClose.length ≤ x.length
  · have h0 : itemClose.length - x.length = 0 := by omega
    rw [h0] at htake
    simp at htake
    exact hnp (isPrefixOf_of_take _ _ htake)
  · push_neg at hb
    have hxf : x.take itemClose.length = x := List.take_of_length_le (le_of_lt hb)
    rw [hxf, List.take_append_eq_append_take] at htake
    have h0 : itemClose.length - x.length - itemClose.length = 0 := by omega
    rw [h0] at htake
    simp at htake
    have hxe : itemClose.take x.length = x := by
      have h2 := congrArg (List.take x.length) htake
      rw [List.take_append_eq_append_take] at h2
      simp at h2
      exact h2.symm
    have hfin : ∀ b : Fin 7, 0 < b.val →
        itemClose.take b.val ++ itemClose.take (itemClose.length - b.val) ≠ itemClose := by
      decide
    have hblt : x.length < 7 := by
      have : itemClose.length = 7 := by decide
      omega
    have hbpos : 0 < x.length := List.length_pos.mpr hx
    exact hfin ⟨x.length, hblt⟩ hbpos (by rw [hxe]; exact htake)

/-- `splitFirst` on a text that starts with the pattern splits right there. -/
theorem splitFirst_self_append (p : Char) (pr y : List Char) :
    splitFirst (p :: pr) ((p :: pr) ++ y) = some ([], y) := by
  have h1 : (p :: pr).isPrefixOf ((p :: pr) ++ y) = true := isPrefixOf_append_self _ _
  have h2 : ((p :: pr) ++ y).drop (p :: pr).length = y := List.drop_left _ _
  rw [List.cons_append] at h1 h2
  rw [List.cons_append]
  unfold splitFirst
  rw [if_pos h1, h2]

/-- If the close tag occurs nowhere in the item body, `splitFirst` splits the
body exactly off the closing tag appended after it. -/
theorem splitFirst_itemClose_append (c rest : List Char)
    (h : splitFirst itemClose c = none) :
    splitFirst itemClose (c ++ (itemClose ++ rest)) = some (c, rest) := by
  induction c with
  | nil =>
    rw [List.nil_append]
    rw [show itemClose = '<' :: "/item>".data from rfl, splitFirst_self_append]
  | cons ch c2 ih =>
    have hsplit : ¬ itemClose.isPrefixOf (ch :: c2) = true ∧
        splitFirst itemClose c2 = none := by
      unfold splitFirst at h
      by_cases hpre : itemClose.isPrefixOf (ch :: c2) = true
      · rw [if_pos hpre] at h
        exact absurd h (by simp)
      · rw [if_neg hpre] at h
        refine ⟨hpre, ?_⟩
        cases hsf : splitFirst itemClose c2 with
        | none => rfl
        | some pr =>
          rw [hsf] at h
          exact absurd h (by simp)
    have hnops : ¬ itemClose.isPrefixOf ((ch :: c2) ++ (itemClose ++ rest)) = true :=
      itemClose_no_straddle (ch :: c2) rest hsplit.1 (by simp)
    rw [List.cons_append]
    unfold splitFirst
    rw [List.cons_append] at hnops
    rw [if_neg hnops, ih hsplit.2]

/-- The character data of a feed built from a list of item bodies. -/
def feedData (cs : List (List Char)) : List Char :=
  (cs.map (fun c => itemOpen ++ (c ++ itemClose))).flatten

/-- A syndication feed holding exactly the given item bodies, in order. -/
def mkFeed (cs : List (List Char)) : String :=
  String.mk (feedData cs)

/-- A feed of n items is at least n characters long. -/
theorem feedData_length (cs : List (List Char)) : cs.length ≤ (feedData cs).length := by
  induction cs with
  | nil => simp [feedData]
  | cons c cs2 ih =>
    have h1 : feedData (c :: cs2) = (itemOpen ++ (c ++ itemClose)) ++ feedData cs2 := by
      simp [feedData]
    rw [h1]
    simp only [List.length_append, List.length_cons]
    have hio : itemOpen.length = 6 := by decide
    omega

/-- The item loop recovers exactly the item bodies of a built feed, in
document order, when no body contains the close tag. -/
theorem extractItemsAux_feedData :
    ∀ (cs : List (List Char)) (fuel : Nat),
      (∀ c ∈ cs, splitFirst itemClose c = none) → cs.length ≤ fuel →
      extractItemsAux fuel (feedData cs) = cs := by
  intro cs
  induction cs with
  | nil =>
    intro fuel _ _
    cases fuel with
    | zero => rfl
    | succ f =>
      show extractItemsAux (f + 1) [] = []
      unfold extractItemsAux
      rw [show splitFirst itemOpen ([] : List Char) = none from rfl]
  | cons c cs2 ih =>
    intro fuel hall hfuel
    cases fuel with
    | zero => simp at hfuel
    | succ f =>
      have hf1 : feedData (c :: cs2) = itemOpen ++ ((c ++ itemClose) ++ feedData cs2) := by
        simp [feedData, List.append_assoc]
      have hopen : splitFirst itemOpen (feedData (c :: cs2))
          = some ([], (c ++ itemClose) ++ feedData cs2) := by
        rw [hf1, show itemOpen = '<' :: "item>".data from rfl, splitFirst_self_append]
      have hclose : splitFirst itemClose ((c ++ itemClose) ++ feedData cs2)
          = some (c, feedData cs2) := by
        rw [List.append_assoc]
        exact splitFirst_itemClose_append c (feedData cs2) (hall c (by simp))
      have hfu : cs2.length ≤ f := by
        simp only [List.length_cons] at hfuel
        omega
      unfold extractItemsAux
      rw [hopen]
      dsimp only
      rw [hclose]
      dsimp only
      rw [ih f (fun c2 hc2 => hall c2 (List.mem_cons_of_mem c hc2)) hfu]

/-- The counting loop takes the first `maxArticles - count` articles that
the per-item extraction yields; skipped items do not advance the count. -/
theorem rssCollect_take (nowIso : String) (maxArticles : Nat) :
    ∀ (items : List (List Char)) (count : Nat),
      rssCollect nowIso maxArticles items count
        = (items.filterMap (rssItemArticle nowIso)).take (maxArticles - count) := by
  intro items
  induction items with
  | nil => intro count; simp [rssCollect]
  | cons item rest ih =>
    intro count
    by_cases hc : count < maxArticles
    · unfold rssCollect
      rw [if_pos hc]
      cases hi : rssItemArticle nowIso item with
      | some a =>
        dsimp only
        rw [ih (count + 1)]
        rw [show maxArticles - count = (maxArticles - (count + 1)) + 1 from by omega]
        simp [List.filterMap_cons, hi]
      | none =>
        dsimp only
        rw [ih count]
        simp [List.filterMap_cons, hi]
    · unfold rssCollect
      rw [if_neg hc]
      rw [show maxArticles - count = 0 from by omega]
      simp

/-- Claim C9: (a) the syndication item loop collects, in document order, the
articles produced by the per-item extraction, stopping once the count
reaches `maxArticles`; items yielding no article are skipped without
advancing the count. (b) For a feed built of 3 well-formed items with
`maxArticles = 2`, exactly the articles of the first 2 items are returned,
in document order. -/
theorem claim_C9 :
    (∀ (nowIso : String) (maxArticles : Nat) (items : List (List Char)) (count : Nat),
        rssCollect nowIso maxArticles items count
          = (items.filterMap (rssItemArticle nowIso)).take (maxArticles - count))
    ∧
    (∀ (topic nowIso : String) (c1 c2 c3 : List Char) (a1 a2 a3 : NewsArticle),
        splitFirst itemClose c1 = none → splitFirst itemClose c2 = none →
        splitFirst itemClose c3 = none →
        rssItemArticle nowIso c1 = some a1 → rssItemArticle nowIso c2 = some a2 →
        rssItemArticle nowIso c3 = some a3 →
        executeRssStage topic 2 (Except.ok (mkFeed [c1, c2, c3])) nowIso
          = ⟨[a1, a2], 2, topic⟩) := by
  constructor
  · exact fun nowIso maxArticles => rssCollect_take nowIso maxArticles
  · intro topic nowIso c1 c2 c3 a1 a2 a3 hs1 hs2 hs3 ha1 ha2 ha3
    have hx : extractItems (mkFeed [c1, c2, c3]).data = [c1, c2, c3] := by
      show extractItemsAux ((feedData [c1, c2, c3]).length + 1) (feedData [c1, c2, c3])
        = [c1, c2, c3]
      refine extractItemsAux_feedData [c1, c2, c3] _ ?_ ?_
      · intro c hc
        simp at hc
        rcases hc with h | h | h <;> subst h <;> assumption
      · have := feedData_length [c1, c2, c3]
        simp at this ⊢
        omega
    show (⟨rssArticles nowIso (mkFeed [c1, c2, c3]) 2,
      (rssArticles nowIso (mkFeed [c1, c2, c3]) 2).length, topic⟩ : FetchNewsResult)
      = ⟨[a1, a2], 2, topic⟩
    have harts : rssArticles nowIso (mkFeed [c1, c2, c3]) 2 = [a1, a2] := by
      unfold rssArticles
      rw [hx, rssCollect_take]
      simp [List.filterMap_cons, ha1, ha2, ha3]
    rw [harts]
    rfl

/-- Witness for claim C9: a concrete 3-item feed with `maxArticles = 2`. -/
theorem claim_C9_witness :
    executeRssStage "tech" 2
        (Except.ok (mkFeed ["<title>Alpha</title><link>http://a</link>".data,
          "<title>Beta</title><link>http://b</link>".data,
          "<title>Gamma</title><link>http://c</link>".data])) "2024-01-01T00:00:00Z"
      = ⟨[⟨"Alpha", none, none, "http://a", "Google News", "2024-01-01T00:00:00Z", none⟩,
          ⟨"Beta", none, none, "http://b", "Google News", "2024-01-01T00:00:00Z", none⟩],
         2, "tech"⟩ :=
  claim_C9.2 "tech" "2024-01-01T00:00:00Z"
    "<title>Alpha</title><link>http://a</link>".data
    "<title>Beta</title><link>http://b</link>".data
    "<title>Gamma</title><link>http://c</link>".data
    ⟨"Alpha", none, none, "http://a", "Google News", "2024-01-01T00:00:00Z", none⟩
    ⟨"Beta", none, none, "http://b", "Google News", "2024-01-01T00:00:00Z", none⟩
    ⟨"Gamma", none, none, "http://c", "Google News", "2024-01-01T00:00:00Z", none⟩
    (by decide) (by decide) (by decide) rfl rfl rfl

end FXV

namespace FXV

/-! ## Token revocation (blacklist and signUpdate cutoff)

`blacklistToken` / `isTokenBlacklisted` and `invalidateUserTokens` /
`isTokenInvalidatedBySignUpdate` all return early when the backend is not
connected and swallow cache errors (fail-open).  The cutoff record is stored
as `signUpdate.toString()` and read back through `parseInt(signUpdate, 10)`;
both are embedded below. -/

/-- Decimal digits of `n`, most significant first (fueled; `fuel > n`
suffices since the recursion divides by 10). -/
def natToDigitsAux : Nat → Nat → List Char
  | 0, _ => []
  | fuel + 1, n =>
    if n < 10 then [Char.ofNat (48 + n)]
    else natToDigitsAux fuel (n / 10) ++ [Char.ofNat (48 + n % 10)]

/-- Embeds JS `Number.prototype.toString()` on integral values. -/
def intToString (c : Int) : String :=
  if c < 0 then String.mk ('-' :: natToDigitsAux (c.natAbs + 1) c.natAbs)
  else String.mk (natToDigitsAux (c.natAbs + 1) c.natAbs)

/-- Accumulates the leading run of decimal digits (the digit-consuming loop
of `parseInt`). -/
def parseIntDigits : List Char → Nat → Nat
  | [], acc => acc
  | ch :: rest, acc =>
    if isDigit ch then parseIntDigits rest (acc * 10 + (ch.toNat - 48)) else acc

/-- Optional sign at the front of a `parseInt` input. -/
def parseIntSign : List Char → Bool × List Char
  | [] => (false, [])
  | ch :: rest =>
    if ch = '-' then (true, rest)
    else if ch = '+' then (false, rest)
    else (false, ch :: rest)

/-- Embeds JS `parseInt(s, 10)`: leading whitespace skipped, optional sign,
then the leading run of digits; `none` is `NaN` (no digits). -/
def parseIntBase10 (s : String) : Option Int :=
  match parseIntSign (skipWs s.data) with
  | (neg, t) =>
    match t with
    | [] => none
    | ch :: rest =>
      if isDigit ch then
        some (if neg then -(parseIntDigits (ch :: rest) 0 : Int)
          else (parseIntDigits (ch :: rest) 0 : Int))
      else none

/-- A digit character built from a value below 10 passes `isDigit`. -/
theorem isDigit_ofNat (m : Nat) (h : m < 10) : isDigit (Char.ofNat (48 + m)) = true := by
  interval_cases m <;> decide

/-- Code-point value of a digit character built from a value below 10. -/
theorem toNat_ofNat_digit (m : Nat) (h : m < 10) : (Char.ofNat (48 + m)).toNat - 48 = m := by
  interval_cases m <;> decide

/-- Digit characters are not the minus sign. -/
theorem ofNat_digit_ne_minus (m : Nat) (h : m < 10) : ¬ (Char.ofNat (48 + m) = '-') := by
  interval_cases m <;> decide

/-- Digit characters are not the plus sign. -/
theorem ofNat_digit_ne_plus (m : Nat) (h : m < 10) : ¬ (Char.ofNat (48 + m) = '+') := by
  interval_cases m <;> decide

/-- Digit characters are not JSON whitespace. -/
theorem jsonWsChar_ofNat_digit (m : Nat) (h : m < 10) :
    jsonWsChar (Char.ofNat (48 + m)) = false := by
  interval_cases m <;> decide

/-- One step of the digit-consuming loop on a digit character. -/
theorem parseIntDigits_cons_digit (ch : Char) (rest : List Char) (acc : Nat)
    (h : isDigit ch = true) :
    parseIntDigits (ch :: rest) acc = parseIntDigits rest (acc * 10 + (ch.toNat - 48)) := by
  show (if isDigit ch = true then parseIntDigits rest (acc * 10 + (ch.toNat - 48)) else acc)
    = parseIntDigits rest (acc * 10 + (ch.toNat - 48))
  rw [if_pos h]

/-- The sign scanner consumes a leading minus. -/
theorem parseIntSign_minus (rest : List Char) :
    parseIntSign ('-' :: rest) = (true, rest) := rfl

/-- The sign scanner leaves an unsigned input alone. -/
theorem parseIntSign_nosign (ch : Char) (rest : List Char)
    (h1 : ¬ (ch = '-')) (h2 : ¬ (ch = '+')) :
    parseIntSign (ch :: rest) = (false, ch :: rest) := by
  show (if ch = '-' then (true, rest)
    else if ch = '+' then (false, rest) else (false, ch :: rest)) = (false, ch :: rest)
  rw [if_neg h1, if_neg h2]

/-- The digit expansion starts with a digit character. -/
theorem natToDigitsAux_head :
    ∀ (fuel n : Nat), n < fuel →
      ∃ m rest, m < 10 ∧ natToDigitsAux fuel n = Char.ofNat (48 + m) :: rest := by
  intro fuel
  induction fuel with
  | zero => intro n h; omega
  | succ f ih =>
    intro n _
    by_cases h10 : n < 10
    · exact ⟨n, [], h10, by unfold natToDigitsAux; rw [if_pos h10]⟩
    · have hdiv : n / 10 < f := by
        have h1 : n / 10 < n := Nat.div_lt_self (by omega) (by omega)
        omega
      obtain ⟨m, rest, hm, heq⟩ := ih (n / 10) hdiv
      refine ⟨m, rest ++ [Char.ofNat (48 + n % 10)], hm, ?_⟩
      unfold natToDigitsAux
      rw [if_neg h10, heq, List.cons_append]

/-- Consuming the digit expansion of `n` multiplies the accumulator by the
corresponding power of ten and adds `n`. -/
theorem parseIntDigits_natToDigitsAux :
    ∀ (fuel n acc : Nat) (ys : List Char), n < fuel →
      parseIntDigits (natToDigitsAux fuel n ++ ys) acc
        = parseIntDigits ys (acc * 10 ^ (natToDigitsAux fuel n).length + n) := by
  intro fuel
  induction fuel with
  | zero => intro n acc ys h; omega
  | succ f ih =>
    intro n acc ys _
    by_cases h10 : n < 10
    · unfold natToDigitsAux
      rw [if_pos h10, List.cons_append,
        parseIntDigits_cons_digit _ _ _ (isDigit_ofNat n h10), toNat_ofNat_digit n h10]
      simp only [List.length_cons, List.length_nil, List.nil_append, pow_one]
      rfl
    · have hdiv : n / 10 < f := by
        have h1 : n / 10 < n := Nat.div_lt_self (by omega) (by omega)
        omega
      have hmod : n % 10 < 10 := Nat.mod_lt _ (by omega)
      unfold natToDigitsAux
      rw [if_neg h10, List.append_assoc, ih (n / 10) acc _ hdiv,
        show ([Char.ofNat (48 + n % 10)] ++ ys) = Char.ofNat (48 + n % 10) :: ys from rfl,
        parseIntDigits_cons_digit _ _ _ (isDigit_ofNat _ hmod), toNat_ofNat_digit _ hmod]
      congr 1
      simp only [List.length_append, List.length_cons, List.length_nil]
      rw [pow_succ, ← mul_assoc]
      have hdm := Nat.div_add_mod n 10
      set q := acc * 10 ^ (natToDigitsAux f (n / 10)).length
      omega

/-- `toString` output is never the empty string. -/
theorem intToString_ne_empty (c : Int) : ¬ (intToString c = "") := by
  intro h
  have hd := congrArg String.data h
  unfold intToString at hd
  by_cases hc : c < 0
  · rw [if_pos hc] at hd
    exact absurd hd (by simp)
  · rw [if_neg hc] at hd
    obtain ⟨m, rest, _, heq⟩ := natToDigitsAux_head (c.natAbs + 1) c.natAbs (by omega)
    rw [show (String.mk (natToDigitsAux (c.natAbs + 1) c.natAbs)).data
      = natToDigitsAux (c.natAbs + 1) c.natAbs from rfl, heq] at hd
    exact absurd hd (by simp)

/-- `parseInt(c.toString(), 10)` recovers the integer. -/
theorem parseIntBase10_intToString (c : Int) : parseIntBase10 (intToString c) = some c := by
  obtain ⟨m, rest, hm, heq⟩ := natToDigitsAux_head (c.natAbs + 1) c.natAbs (by omega)
  have hval : parseIntDigits (natToDigitsAux (c.natAbs + 1) c.natAbs) 0 = c.natAbs := by
    have h1 := parseIntDigits_natToDigitsAux (c.natAbs + 1) c.natAbs 0 [] (by omega)
    rw [List.append_nil] at h1
    rw [h1]
    simp [parseIntDigits]
  by_cases hc : c < 0
  · have hdata : (intToString c).data = '-' :: natToDigitsAux (c.natAbs + 1) c.natAbs := by
      unfold intToString
      rw [if_pos hc]
    unfold parseIntBase10
    rw [hdata, skipWs_cons _ _ (by decide), parseIntSign_minus]
    dsimp only
    rw [heq]
    dsimp only
    rw [if_pos (isDigit_ofNat m hm), ← heq, hval]
    have h2 : -((c.natAbs : Nat) : Int) = c := by omega
    rw [if_pos rfl, h2]
  · have hdata : (intToString c).data = natToDigitsAux (c.natAbs + 1) c.natAbs := by
      unfold intToString
      rw [if_neg hc]
    unfold parseIntBase10
    rw [hdata, heq, skipWs_cons _ _ (jsonWsChar_ofNat_digit m hm),
      parseIntSign_nosign _ _ (ofNat_digit_ne_minus m hm) (ofNat_digit_ne_plus m hm)]
    dsimp only
    rw [if_pos (isDigit_ofNat m hm), ← heq, hval]
    have h2 : ((c.natAbs : Nat) : Int) = c := by omega
    rw [if_neg (by decide : ¬ (false = true)), h2]

/-- Embeds `isTokenBlacklisted`: `false` when not connected; on a cache read
(`r`, with `error` standing for a thrown cache operation) it reports whether
the blacklist key was present (`result !== null`), and `false` on a throw. -/
def isTokenBlacklisted (connected : Bool) (r : Except Unit (Option String)) : Bool :=
  if connected then
    match r with
    | .error _ => false
    | .ok result => result.isSome
  else false

/-- Embeds `isTokenInvalidatedBySignUpdate`: `false` when not connected or on
a thrown cache operation; otherwise a missing or empty record is valid
(`if (!signUpdate) return false`), an unparsable record compares false
(`NaN`), and a parsed cutoff invalidates iff `tokenIat * 1000 < cutoff`. -/
def isTokenInvalidatedBySignUpdate (connected : Bool) (r : Except Unit (Option String))
    (tokenIat : Int) : Bool :=
  if connected then
    match r with
    | .error _ => false
    | .ok none => false
    | .ok (some signUpdate) =>
      if signUpdate = "" then false
      else
        match parseIntBase10 signUpdate with
        | none => false
        | some signUpdateMs => decide (tokenIat * 1000 < signUpdateMs)
  else false

/-- Embeds `invalidateUserTokens`: stores `signUpdate.toString()` under the
user's cutoff key with a 24-hour TTL; a no-op when not connected. -/
def invalidateUserTokens (now : Int) (connected : Bool) (s : CacheStore)
    (userId : String) (signUpdate : Int) : CacheStore :=
  if connected then
    InMem.setEx now s ("user:signUpdate:" ++ userId) 86400 (intToString signUpdate)
  else s

/-- Claim C7: (1) not connected means both checks fail open to `false`;
(2) a thrown cache operation also yields `false` for both; (3) when
connected, reading back (within the TTL) the cutoff written by
`invalidateUserTokens` makes `isTokenInvalidatedBySignUpdate` true exactly
when `tokenIat * 1000 < cutoff`; (4) with no cutoff record the check is
`false`. -/
theorem claim_C7 :
    (∀ (r : Except Unit (Option String)) (tokenIat : Int),
        isTokenBlacklisted false r = false ∧
        isTokenInvalidatedBySignUpdate false r tokenIat = false)
    ∧
    (∀ (tokenIat : Int),
        isTokenBlacklisted true (Except.error ()) = false ∧
        isTokenInvalidatedBySignUpdate true (Except.error ()) tokenIat = false)
    ∧
    (∀ (now readNow : Int) (s : CacheStore) (userId : String) (cutoff tokenIat : Int),
        readNow ≤ now + 86400 * 1000 →
        (isTokenInvalidatedBySignUpdate true
            (Except.ok (InMem.get readNow (invalidateUserTokens now true s userId cutoff)
              ("user:signUpdate:" ++ userId)).1) tokenIat = true
          ↔ tokenIat * 1000 < cutoff))
    ∧
    (∀ (readNow : Int) (s : CacheStore) (userId : String) (tokenIat : Int),
        s ("user:signUpdate:" ++ userId) = none →
        isTokenInvalidatedBySignUpdate true
          (Except.ok (InMem.get readNow s ("user:signUpdate:" ++ userId)).1) tokenIat
          = false) := by
  refine ⟨fun r tokenIat => ⟨rfl, rfl⟩, fun tokenIat => ⟨rfl, rfl⟩, ?_, ?_⟩
  · intro now readNow s userId cutoff tokenIat hle
    have hkey : (invalidateUserTokens now true s userId cutoff) ("user:signUpdate:" ++ userId)
        = some ⟨intToString cutoff, now + 86400 * 1000⟩ := by
      unfold invalidateUserTokens InMem.setEx CacheStore.set
      rw [if_pos rfl]
      simp
    have hget : (InMem.get readNow (invalidateUserTokens now true s userId cutoff)
        ("user:signUpdate:" ++ userId)).1 = some (intToString cutoff) := by
      unfold InMem.get
      rw [hkey]
      dsimp only
      rw [if_neg (by omega : ¬ readNow > now + 86400 * 1000)]
    rw [hget]
    unfold isTokenInvalidatedBySignUpdate
    rw [if_pos rfl]
    dsimp only
    rw [if_neg (intToString_ne_empty cutoff), parseIntBase10_intToString]
    dsimp only
    simp
  · intro readNow s userId tokenIat hnone
    have hget : (InMem.get readNow s ("user:signUpdate:" ++ userId)).1 = none := by
      unfold InMem.get
      rw [hnone]
    rw [hget]
    rfl

/-- Witness for claim C7 at concrete inputs: an unavailable backend fails
open, a written cutoff of 5000 invalidates a token issued at second 3, and
an empty store invalidates nothing. -/
theorem claim_C7_witness :
    isTokenBlacklisted false (Except.ok (some "revoked")) = false ∧
    (isTokenInvalidatedBySignUpdate true
        (Except.ok (InMem.get 0 (invalidateUserTokens 0 true CacheStore.empty "u" 5000)
          ("user:signUpdate:" ++ "u")).1) 3 = true
      ↔ (3:Int) * 1000 < 5000) ∧
    isTokenInvalidatedBySignUpdate true
      (Except.ok (InMem.get 0 CacheStore.empty ("user:signUpdate:" ++ "u")).1) 3 = false :=
  ⟨(claim_C7.1 (Except.ok (some "revoked")) 0).1,
   claim_C7.2.2.1 0 0 CacheStore.empty "u" 5000 3 (by decide),
   claim_C7.2.2.2 0 CacheStore.empty "u" 3 rfl⟩

end FXV
